import Mathlib

/-!
# Verification of the glcd graphics core (`src/trunk/glcd/glcd.cpp`)

Shallow embedding of the page-addressed pixel-memory drawing engine.

The canvas is organised as pages of bytes: the byte at page `p`, column `c`
packs the eight pixels `(c, 8*p) .. (c, 8*p+7)`, bit `b` (0 = top) being
pixel `(c, 8*p + b)`.  Bytes are natural numbers `< 256`; `uint8_t`
arithmetic from the C source is mirrored with explicit `% 256`.

The device primitives (`GotoXY`, `ReadData`, `WriteData`, `SetDot`,
`SetPixels`) belong to `glcd_Device`, which is not part of this repository;
they are modelled from the spec (sections 2, 4.2, 4.3 and 6), as marked on
each definition.  Everything in the `glcd` class itself is translated from
`glcd.cpp`.
-/

set_option maxHeartbeats 1000000

namespace Glcd

/-- Pixel memory: page index and column index to a byte.  Well-formed
states hold bytes `< 256`. -/
def Mem : Type := Nat → Nat → Nat

/-- Update one byte of pixel memory. -/
def upd (mem : Mem) (p c d : Nat) : Mem :=
  fun p' c' => if p' = p ∧ c' = c then d else mem p' c'

/-- A memory state is byte-bounded when every byte is `< 256`. -/
def Bytes (mem : Mem) : Prop := ∀ p c, mem p c < 256

/-- `#define BLACK 0xFF` (foreground): all eight pixels of a byte set. -/
def BLACK : Nat := 255

/-- `#define WHITE 0x00` (background). -/
def WHITE : Nat := 0

/-- The pixel at column `x`, row `y`: bit `y % 8` of the byte at page
`y / 8`, column `x`. -/
def getDot (mem : Mem) (x y : Nat) : Bool := (mem (y / 8) x).testBit (y % 8)

/-- One's complement on a byte, `uint8_t t = ~d` in C. -/
def compl8 (d : Nat) : Nat := d ^^^ 255

/-- `uint8_t` addition. -/
def add8 (a b : Nat) : Nat := (a + b) % 256

/-- `uint8_t` subtraction (arguments `< 256`). -/
def sub8 (a b : Nat) : Nat := (a + 256 - b) % 256

/-- Device cursor state: pixel memory plus the transient cursor
`(cx, cy)` used by the sequential read/write primitives. -/
structure GState where
  mem : Mem
  cx : Nat
  cy : Nat

/-- Modelled from the spec (§6): `glcd_Device::GotoXY` is not in this
repository; "`gotoXY(x, y)`: sets cursor to column `x`, page `y/8`". -/
def GotoXY (s : GState) (x y : Nat) : GState := { s with cx := x, cy := y }

/-- Modelled from the spec (§6): `glcd_Device::ReadData` is not in this
repository; "reads one vertical byte at cursor", with the cursor column
restored so that the following `writeData` writes the very same column
("required by invert's read-then-write-same-column pattern"). -/
def ReadData (s : GState) : Nat := s.mem (s.cy / 8) s.cx

/-- Modelled from the spec (§2, §6, §4.3): `glcd_Device::WriteData` is not
in this repository; "writes one vertical byte at cursor, auto-increments
cursor's x" and "bitwise-ORs or replaces": when the cursor row is
page-aligned the byte replaces the page byte, otherwise the write "behaves
as an OR into possibly-partial target pages", the byte being split over
the two pages the unaligned rows span. -/
def WriteData (s : GState) (d : Nat) : GState :=
  let off := s.cy % 8
  let p := s.cy / 8
  if off = 0 then
    { s with mem := upd s.mem p s.cx d, cx := s.cx + 1 }
  else
    let m1 := upd s.mem p s.cx (s.mem p s.cx ||| ((d <<< off) % 256))
    let m2 := upd m1 (p + 1) s.cx (m1 (p + 1) s.cx ||| (d >>> (8 - off)))
    { s with mem := m2, cx := s.cx + 1 }

/-- Modelled from the spec (§6): `glcd_Device::SetDot` is not in this
repository; "sets/clears a single pixel without disturbing the rest of
its page byte" (set when the color is FOREGROUND/BLACK, clear
otherwise). -/
def SetDot (mem : Mem) (x y color : Nat) : Mem :=
  let p := y / 8
  let data := mem p x
  if color = BLACK then upd mem p x (data ||| (1 <<< (y % 8)))
  else upd mem p x (data &&& ((1 <<< (y % 8)) ^^^ 255))

/-- The byte mask selecting the bits `b < 8` of page `p` whose rows
`8*p + b` lie in the closed row interval `[lo, hi]`. -/
def boxMask (lo hi p : Nat) : Nat :=
  let a := max lo (8 * p)
  let b := min hi (8 * p + 7)
  if a ≤ b then ((1 <<< (b - a + 1)) - 1) <<< (a - 8 * p) else 0

/-- Modelled from the spec (§4.2): `glcd_Device::SetPixels` is not in this
repository; "`fillRect(x,y,w,h,color)` = set every pixel in the
closed-inclusive box `[x,x+w] × [y,y+h]` via bulk pixel-region set" —
every pixel of the box `[x,x2] × [y,y2]` is set (FOREGROUND/BLACK) or
cleared (BACKGROUND), the rest of each page byte undisturbed. -/
def SetPixels (mem : Mem) (x y x2 y2 color : Nat) : Mem :=
  fun p c =>
    if x ≤ c ∧ c ≤ x2 then
      if color = BLACK then mem p c ||| boxMask y y2 p
      else mem p c &&& (boxMask y y2 p ^^^ 255)
    else mem p c

/-! ## `glcd::ClearPage` and `glcd::ClearScreen` (glcd.cpp lines 78-131) -/

/-- The `while(length--) WriteData(color);` run of `ClearPage`. -/
def writeRun (s : GState) (color : Nat) : Nat → GState
  | 0 => s
  | n + 1 => writeRun (WriteData s color) color n

/-- `glcd::ClearPage(page, startX, length, color)` (glcd.cpp lines
99-107), parametric in the configured `DISPLAY_WIDTH` `W`. -/
def ClearPage (W : Nat) (mem : Mem) (page startX length color : Nat) : Mem :=
  let length' := if startX + length > W then W - startX else length
  (writeRun (GotoXY ⟨mem, 0, 0⟩ startX (page * 8)) color length').mem

/-- `glcd::ClearPage(page, color)` (glcd.cpp lines 78-80):
`ClearPage(page, 0, DISPLAY_WIDTH, color)`. -/
def ClearPage1 (W : Nat) (mem : Mem) (page color : Nat) : Mem :=
  ClearPage W mem page 0 W color

/-- The `for(page = 0; page < n; page++) ClearPage(page, color);` loop:
`clearPagesUpTo W mem color n` clears pages `0 .. n-1` in order. -/
def clearPagesUpTo (W : Nat) (mem : Mem) (color : Nat) : Nat → Mem
  | 0 => mem
  | n + 1 => ClearPage1 W (clearPagesUpTo W mem color n) n color

/-- `glcd::ClearScreen(color)` (glcd.cpp lines 126-131): the loop bound is
the literal `8` from the source (`for(page = 0; page < 8; page++)`), not
`DISPLAY_HEIGHT/8`. -/
def ClearScreen (W : Nat) (mem : Mem) (color : Nat) : Mem :=
  clearPagesUpTo W mem color 8

/-! ### Characterisation of the `writeRun` loop -/

theorem writeRun_cy (s : GState) (color : Nat) (n : Nat) :
    (writeRun s color n).cy = s.cy := by
  induction n generalizing s with
  | zero => rfl
  | succ n ih =>
    rw [writeRun, ih]
    unfold WriteData
    by_cases h : s.cy % 8 = 0 <;> simp [h]

theorem writeRun_mem (s : GState) (color : Nat) (n : Nat)
    (halign : s.cy % 8 = 0) :
    (writeRun s color n).mem
      = fun p c =>
          if p = s.cy / 8 ∧ s.cx ≤ c ∧ c < s.cx + n then color else s.mem p c := by
  induction n generalizing s with
  | zero =>
    funext p c
    have hno : ¬ (p = s.cy / 8 ∧ s.cx ≤ c ∧ c < s.cx) := by
      rintro ⟨_, h1, h2⟩; omega
    simp [writeRun, hno]
  | succ n ih =>
    rw [writeRun]
    have hw : WriteData s color
        = { s with mem := upd s.mem (s.cy / 8) s.cx color, cx := s.cx + 1 } := by
      unfold WriteData
      simp [halign]
    rw [hw, ih _ (by simpa using halign)]
    funext p c
    simp only [upd]
    by_cases hp : p = s.cy / 8
    · subst hp
      simp only [true_and]
      split_ifs with h1 h2 h3 h4 h5 <;> first | rfl | (exfalso; omega)
    · simp [hp]

/-- Pointwise description of `ClearPage`: with `startX < W`, the byte at
page `page`, columns `startX .. startX + min(length, W - startX) - 1`
becomes `color`; everything else is untouched. -/
theorem ClearPage_eq (W : Nat) (mem : Mem) (page startX length color : Nat) :
    ClearPage W mem page startX length color
      = fun p c =>
          if p = page ∧ startX ≤ c ∧
              c < startX + (if startX + length > W then W - startX else length)
          then color else mem p c := by
  unfold ClearPage
  rw [writeRun_mem _ _ _ (by simp [GotoXY, Nat.mul_mod_left])]
  funext p c
  simp [GotoXY, Nat.mul_div_cancel_left _ (by norm_num : 0 < 8)]

/-- `clearPagesUpTo` paints every byte of pages `0 .. n-1`, columns
`0 .. W-1`, with `color`. -/
theorem clearPagesUpTo_eq (W : Nat) (mem : Mem) (color : Nat) (n : Nat) :
    clearPagesUpTo W mem color n
      = fun p c => if p < n ∧ c < W then color else mem p c := by
  induction n with
  | zero =>
    funext p c
    have hno : ¬ (p < 0 ∧ c < W) := by rintro ⟨h1, _⟩; omega
    simp [clearPagesUpTo, hno]
  | succ n ih =>
    rw [clearPagesUpTo, ih]
    unfold ClearPage1
    rw [ClearPage_eq]
    funext p c
    simp only [gt_iff_lt, lt_irrefl, if_false, Nat.zero_le, true_and, Nat.zero_add]
    split_ifs with h1 h2 h3 h4 <;> first | rfl | (exfalso; omega)

/-- `ClearScreen` paints exactly pages `0 .. 7` (the hardcoded loop bound
of glcd.cpp line 128), columns `0 .. W-1`. -/
theorem ClearScreen_eq (W : Nat) (mem : Mem) (color : Nat) :
    ClearScreen W mem color
      = fun p c => if p < 8 ∧ c < W then color else mem p c :=
  clearPagesUpTo_eq W mem color 8

/-- C8: for `startX < W`, `ClearPage(page, startX, length, color)` writes
the byte `color` to exactly `min(length, W - startX)` consecutive columns
of page `page` starting at column `startX`, and never touches any column
at or beyond `W`; the clamp replaces `length` instead of failing. -/
theorem c8_clearPage_clamps (W : Nat) (mem : Mem)
    (page startX length color : Nat) (h : startX < W) :
    (ClearPage W mem page startX length color
      = fun p c =>
          if p = page ∧ startX ≤ c ∧ c < startX + min length (W - startX)
          then color else mem p c)
    ∧ ∀ p c, W ≤ c → ClearPage W mem page startX length color p c = mem p c := by
  have hmin : (if startX + length > W then W - startX else length)
      = min length (W - startX) := by
    split_ifs <;> omega
  have hmain : ClearPage W mem page startX length color
      = fun p c =>
          if p = page ∧ startX ≤ c ∧ c < startX + min length (W - startX)
          then color else mem p c := by
    rw [ClearPage_eq, hmin]
  refine ⟨hmain, fun p c hc => ?_⟩
  rw [hmain]
  have hno : ¬ (p = page ∧ startX ≤ c ∧ c < startX + min length (W - startX)) := by
    rintro ⟨_, h1, h2⟩
    omega
  simp [hno]

/-- Witness for C8 at `W = 128`, `page = 3`, `startX = 100`,
`length = 50`, `color = 255`: exactly `min 50 28 = 28` columns written. -/
theorem c8_clearPage_clamps_witness :
    (100 < 128)
    ∧ ((ClearPage 128 (fun _ _ => 0) 3 100 50 255
        = fun p c => if p = 3 ∧ 100 ≤ c ∧ c < 100 + min 50 (128 - 100)
            then 255 else (fun _ _ => (0 : Nat)) p c)
      ∧ ∀ p c, 128 ≤ c → ClearPage 128 (fun _ _ => 0) 3 100 50 255 p c
          = (fun _ _ => (0 : Nat)) p c) :=
  ⟨by decide, c8_clearPage_clamps 128 (fun _ _ => 0) 3 100 50 255 (by decide)⟩

/-- C4 (code bug): `ClearScreen` iterates the literal page range
`0 .. 7` (glcd.cpp line 128) instead of `0 .. HEIGHT/8 - 1`.  On a canvas
with `HEIGHT = 128` (16 pages) and `WIDTH = 128`, clearing an
all-foreground screen to `WHITE` leaves the byte at page 8, column 0
untouched at `0xFF`, so pixel `(0, 64)` is still set, contradicting the
claim (and the function's own doc comment) that every pixel up to
`(WIDTH-1, HEIGHT-1)` is set to the color; pages `0 .. 7` are cleared. -/
theorem c4_clearScreen_hardcodes_eight_pages :
    ClearScreen 128 (fun _ _ => 255) WHITE 8 0 = 255
    ∧ getDot (ClearScreen 128 (fun _ _ => 255) WHITE) 0 64 = true
    ∧ ClearScreen 128 (fun _ _ => 255) WHITE 7 127 = WHITE := by
  rw [ClearScreen_eq]
  refine ⟨by norm_num, ?_, by norm_num⟩
  unfold getDot
  norm_num

/-! ## `glcd::InvertRect` (glcd.cpp lines 364-418) and
`glcd::SetDisplayMode` (lines 430-435) -/

/-- A read-transform-write column loop: `n` iterations of
`data = ReadData(); WriteData(f(data));`. -/
def rowLoop (f : Nat → Nat) (s : GState) : Nat → GState
  | 0 => s
  | n + 1 => rowLoop f (WriteData s (f (ReadData s))) n

/-- The masked read-invert-recombine row loop of `InvertRect` (lines
383-388 and 411-416): `n` iterations of `data = ReadData(); tmpData =
~data; data = (tmpData & mask) | (data & ~mask); WriteData(data);`. -/
def invertRow (s : GState) (mask : Nat) (n : Nat) : GState :=
  rowLoop (fun data => (compl8 data &&& mask) ||| (data &&& compl8 mask)) s n

/-- The full-page row loop of `InvertRect` (lines 398-401): `n`
iterations of `data = ReadData(); WriteData(~data);`. -/
def invertRowFull (s : GState) (n : Nat) : GState :=
  rowLoop (fun data => compl8 data) s n

/-- The `while(h+8 <= height)` loop of `InvertRect` (lines 393-402):
increments `h` and `y` by 8 (uint8), repositions the cursor and inverts a
full page row of `width+1` columns; returns the final state together
with the final `y` and `h`. -/
def invertFull (s : GState) (x width y h height : Nat) : GState × Nat × Nat :=
  if hcond : h + 8 ≤ height then
    invertFull (invertRowFull (GotoXY s x ((y + 8) % 256)) (width + 1))
      x width ((y + 8) % 256) (h + 8) height
  else (s, y, h)
termination_by height - h
decreasing_by simp_wf; omega

/-- `glcd::InvertRect(x, y, width, height)` (glcd.cpp lines 364-418). -/
def InvertRect (mem : Mem) (x y width height0 : Nat) : Mem :=
  let height := (height0 + 1) % 256
  let pageOffset := y % 8
  let y1 := y - pageOffset
  let mh : Nat × Nat :=
    if height < 8 - pageOffset then (255 >>> (8 - height), height)
    else (255, 8 - pageOffset)
  let mask := (mh.1 <<< pageOffset) % 256
  let h := mh.2
  let s1 := invertRow (GotoXY ⟨mem, 0, 0⟩ x y1) mask (width + 1)
  let r := invertFull s1 x width y1 h height
  if r.2.2 < height then
    let mask2 := compl8 ((255 <<< (height - r.2.2)) % 256)
    (invertRow (GotoXY r.1 x ((r.2.1 + 8) % 256)) mask2 (width + 1)).mem
  else r.1.mem

/-- Engine state: pixel memory plus the stored `Inverted` display-mode
flag (glcd.h member, set in the constructor, line 50). -/
structure GlcdState where
  mem : Mem
  Inverted : Nat

/-- `glcd::SetDisplayMode(invert)` (glcd.cpp lines 430-435), parametric
in the configured `DISPLAY_WIDTH` and `DISPLAY_HEIGHT`. -/
def SetDisplayMode (W H : Nat) (g : GlcdState) (invert : Nat) : GlcdState :=
  if g.Inverted ≠ invert then
    { mem := InvertRect g.mem 0 0 (W - 1) (H - 1), Inverted := invert }
  else g

/-! ### Byte-level toolkit -/

theorem testBit_255 (i : Nat) : (255 : Nat).testBit i = decide (i < 8) := by
  have h : (255 : Nat) = 2 ^ 8 - 1 := by norm_num
  rw [h, Nat.testBit_two_pow_sub_one]

theorem testBit_high_false {d i : Nat} (hd : d < 256) (hi : 8 ≤ i) :
    d.testBit i = false := by
  apply Nat.testBit_eq_false_of_lt
  calc d < 256 := hd
    _ = 2 ^ 8 := by norm_num
    _ ≤ 2 ^ i := Nat.pow_le_pow_right (by norm_num) hi

/-- The recombine step of `InvertRect` is an XOR with the mask:
`(~d & m) | (d & ~m) = d ^ m` on bytes. -/
theorem combine_eq_xor {d m : Nat} (hd : d < 256) (hm : m < 256) :
    (compl8 d &&& m) ||| (d &&& compl8 m) = d ^^^ m := by
  apply Nat.eq_of_testBit_eq
  intro i
  simp only [compl8, Nat.testBit_or, Nat.testBit_and, Nat.testBit_xor, testBit_255]
  by_cases hi : i < 8
  · simp only [hi, decide_True]
    cases hdb : d.testBit i <;> cases hmb : m.testBit i <;> rfl
  · have h8 : 8 ≤ i := by omega
    simp [testBit_high_false hd h8, testBit_high_false hm h8]

theorem xor_lt_256 {a b : Nat} (ha : a < 256) (hb : b < 256) : a ^^^ b < 256 := by
  have h : (256 : Nat) = 2 ^ 8 := by norm_num
  rw [h] at ha hb ⊢
  exact Nat.xor_lt_two_pow ha hb

theorem compl8_lt_256 {d : Nat} (hd : d < 256) : compl8 d < 256 :=
  xor_lt_256 hd (by norm_num)

theorem compl8_eq_xor (d : Nat) : compl8 d = d ^^^ 255 := rfl

theorem Bytes_upd {mem : Mem} (hB : Bytes mem) {p c d : Nat} (hd : d < 256) :
    Bytes (upd mem p c d) := by
  intro p' c'
  unfold upd
  split_ifs with h
  · exact hd
  · exact hB p' c'

/-! ### Characterisation of the invert loops -/

theorem WriteData_aligned (s : GState) (d : Nat) (halign : s.cy % 8 = 0) :
    WriteData s d
      = { s with mem := upd s.mem (s.cy / 8) s.cx d, cx := s.cx + 1 } := by
  unfold WriteData
  simp [halign]

theorem rowLoop_cy (f : Nat → Nat) (s : GState) (n : Nat) :
    (rowLoop f s n).cy = s.cy := by
  induction n generalizing s with
  | zero => rfl
  | succ n ih =>
    rw [rowLoop, ih]
    unfold WriteData
    by_cases h : s.cy % 8 = 0 <;> simp [h]

/-- A page-aligned `rowLoop` applies `f` to the bytes of page `cy/8`,
columns `cx .. cx + n - 1`, and leaves everything else alone. -/
theorem rowLoop_mem (f : Nat → Nat) (s : GState) (n : Nat)
    (halign : s.cy % 8 = 0) :
    (rowLoop f s n).mem
      = fun p c =>
          if p = s.cy / 8 ∧ s.cx ≤ c ∧ c < s.cx + n
          then f (s.mem p c) else s.mem p c := by
  induction n generalizing s with
  | zero =>
    funext p c
    have hno : ¬ (p = s.cy / 8 ∧ s.cx ≤ c ∧ c < s.cx) := by
      rintro ⟨_, h1, h2⟩; omega
    simp [rowLoop, hno]
  | succ n ih =>
    rw [rowLoop, WriteData_aligned s _ halign, ih _ (by simpa using halign)]
    funext p c
    simp only [upd, ReadData]
    by_cases hp : p = s.cy / 8
    · subst hp
      simp only [true_and]
      by_cases hc : c = s.cx
      · subst hc
        have h1 : ¬ (s.cx + 1 ≤ s.cx ∧ s.cx < s.cx + 1 + n) := by omega
        have h2 : s.cx ≤ s.cx ∧ s.cx < s.cx + (n + 1) := by omega
        simp [h1, h2]
      · by_cases h3 : s.cx + 1 ≤ c ∧ c < s.cx + 1 + n
        · have h4 : s.cx ≤ c ∧ c < s.cx + (n + 1) := by omega
          simp [h3, h4, hc]
        · have h5 : ¬ (s.cx ≤ c ∧ c < s.cx + (n + 1)) := by omega
          simp [h3, h5, hc]
    · simp [hp]

theorem invertRow_mem (s : GState) (mask n : Nat)
    (halign : s.cy % 8 = 0) (hB : Bytes s.mem) (hm : mask < 256) :
    (invertRow s mask n).mem
      = fun p c =>
          if p = s.cy / 8 ∧ s.cx ≤ c ∧ c < s.cx + n
          then s.mem p c ^^^ mask else s.mem p c := by
  rw [invertRow, rowLoop_mem _ _ _ halign]
  funext p c
  split_ifs with h
  · exact combine_eq_xor (hB _ _) hm
  · rfl

theorem invertRowFull_mem (s : GState) (n : Nat)
    (halign : s.cy % 8 = 0) :
    (invertRowFull s n).mem
      = fun p c =>
          if p = s.cy / 8 ∧ s.cx ≤ c ∧ c < s.cx + n
          then s.mem p c ^^^ 255 else s.mem p c := by
  rw [invertRowFull, rowLoop_mem _ _ _ halign]
  rfl

/-- The full-page `while` loop of `InvertRect` runs `(height - h) / 8`
times, inverting the pages `y/8 + 1 .. y/8 + (height-h)/8` over columns
`x .. x + width`, and returns `y` and `h` advanced by 8 per iteration. -/
theorem invertFull_spec (x width height : Nat) :
    ∀ (n : Nat) (s : GState) (y h : Nat), (height - h) / 8 = n →
      y % 8 = 0 → y + (height - h) < 256 →
      ((invertFull s x width y h height).1.mem
          = fun p c =>
              if y / 8 + 1 ≤ p ∧ p ≤ y / 8 + n ∧ x ≤ c ∧ c < x + (width + 1)
              then compl8 (s.mem p c) else s.mem p c)
        ∧ (invertFull s x width y h height).2.1 = y + 8 * n
        ∧ (invertFull s x width y h height).2.2 = h + 8 * n := by
  intro n
  induction n with
  | zero =>
    intro s y h hn hy8 hnw
    have hdm := Nat.div_add_mod (height - h) 8
    have hmod := Nat.mod_lt (height - h) (show 0 < 8 by norm_num)
    have hcond : ¬ (h + 8 ≤ height) := by omega
    rw [invertFull, dif_neg hcond]
    refine ⟨?_, by simp, by simp⟩
    funext p c
    have hno : ¬ (y / 8 + 1 ≤ p ∧ p ≤ y / 8 ∧ x ≤ c ∧ c < x + (width + 1)) := by
      rintro ⟨h1, h2, _⟩; omega
    simp [hno]
  | succ n ih =>
    intro s y h hn hy8 hnw
    have hdm := Nat.div_add_mod (height - h) 8
    have hmod := Nat.mod_lt (height - h) (show 0 < 8 by norm_num)
    have hcond : h + 8 ≤ height := by omega
    have hy8' : y + 8 < 256 := by omega
    have hmy : (y + 8) % 256 = y + 8 := Nat.mod_eq_of_lt hy8'
    rw [invertFull, dif_pos hcond, hmy]
    have hsub : height - (h + 8) = 8 * n + (height - h) % 8 := by omega
    have hn' : (height - (h + 8)) / 8 = n := by
      rw [hsub, Nat.mul_add_div (by norm_num)]
      omega
    have hy8'' : (y + 8) % 8 = 0 := by omega
    have hnw' : (y + 8) + (height - (h + 8)) < 256 := by omega
    obtain ⟨ihm, ihy, ihh⟩ := ih (invertRowFull (GotoXY s x (y + 8)) (width + 1))
      (y + 8) (h + 8) hn' hy8'' hnw'
    have hrow := invertRowFull_mem (GotoXY s x (y + 8)) (width + 1)
      (show (GotoXY s x (y + 8)).cy % 8 = 0 by simpa [GotoXY] using hy8'')
    have hdiv : (y + 8) / 8 = y / 8 + 1 := by omega
    refine ⟨?_, by rw [ihy]; omega, by rw [ihh]; omega⟩
    rw [ihm]
    funext p c
    rw [hrow]
    simp only [GotoXY, hdiv, compl8_eq_xor]
    split_ifs with h1 h2 h3 h4 h5 h6 h7 <;> first | rfl | (exfalso; omega)

/-- The byte mask `InvertRect(x, y, width, height0)` XORs into the byte
at page `p`, column `c`: the partial first-page mask on page `y1/8`,
`0xFF` on the `(height-h)/8` full pages after it, the partial tail mask
on the page after those (when the region does not end on a page
boundary), and `0` outside the region. -/
def invertRectMask (x y width height0 p c : Nat) : Nat :=
  let height := (height0 + 1) % 256
  let pageOffset := y % 8
  let y1 := y - pageOffset
  let mh : Nat × Nat :=
    if height < 8 - pageOffset then (255 >>> (8 - height), height)
    else (255, 8 - pageOffset)
  let mask := (mh.1 <<< pageOffset) % 256
  let h := mh.2
  let K := (height - h) / 8
  if x ≤ c ∧ c < x + (width + 1) then
    if p = y1 / 8 then mask
    else if y1 / 8 + 1 ≤ p ∧ p ≤ y1 / 8 + K then 255
    else if p = y1 / 8 + K + 1 ∧ h + 8 * K < height then
      compl8 ((255 <<< (height - (h + 8 * K))) % 256)
    else 0
  else 0

theorem invertRectMask_lt_256 (x y width height0 p c : Nat) :
    invertRectMask x y width height0 p c < 256 := by
  unfold invertRectMask
  by_cases hcase : (height0 + 1) % 256 < 8 - y % 8 <;>
    simp only [hcase, if_true, if_false] <;>
    split_ifs <;>
    first
      | exact Nat.mod_lt _ (by norm_num)
      | exact compl8_lt_256 (Nat.mod_lt _ (by norm_num))
      | decide

/-- `InvertRect` is a pointwise XOR of pixel memory with a mask that
depends only on the region parameters. -/
theorem InvertRect_xor (mem : Mem) (x y width height0 : Nat)
    (hB : Bytes mem) (hy : y < 256) (h255 : height0 + 1 < 256)
    (hyh : y + (height0 + 1) ≤ 256) :
    InvertRect mem x y width height0
      = fun p c => mem p c ^^^ invertRectMask x y width height0 p c := by
  have hmodh : (height0 + 1) % 256 = height0 + 1 := Nat.mod_eq_of_lt h255
  have hpo : y % 8 < 8 := Nat.mod_lt _ (by norm_num)
  have hpole : y % 8 ≤ y := Nat.mod_le _ _
  have hy1align : (y - y % 8) % 8 = 0 := by omega
  have hgalign : (GotoXY (⟨mem, 0, 0⟩ : GState) x (y - y % 8)).cy % 8 = 0 := by
    simpa [GotoXY] using hy1align
  unfold InvertRect invertRectMask
  rw [hmodh]
  by_cases hcase : height0 + 1 < 8 - y % 8
  · -- region contained in the first page: no full pages, no tail
    simp only [hcase, if_true]
    have hm1lt : ((255 >>> (8 - (height0 + 1))) <<< (y % 8)) % 256 < 256 :=
      Nat.mod_lt _ (by norm_num)
    obtain ⟨hm, hy2, hh2⟩ := invertFull_spec x width (height0 + 1) 0
      (invertRow (GotoXY ⟨mem, 0, 0⟩ x (y - y % 8))
        (((255 >>> (8 - (height0 + 1))) <<< (y % 8)) % 256) (width + 1))
      (y - y % 8) (height0 + 1) (by simp) hy1align (by omega)
    rw [hh2, if_neg (by omega), hm,
      invertRow_mem _ _ _ hgalign hB hm1lt]
    funext p c
    simp only [GotoXY, Nat.sub_self, Nat.zero_div]
    split_ifs with h1 h2 h3 h4 h5 <;> first | rfl | (exfalso; omega) | simp
  · -- the first page is filled from the offset to its top
    simp only [hcase, if_false]
    have hm1lt : ((255 : Nat) <<< (y % 8)) % 256 < 256 := Nat.mod_lt _ (by norm_num)
    have hhle : 8 - y % 8 ≤ height0 + 1 := by omega
    obtain ⟨hm, hy2, hh2⟩ := invertFull_spec x width (height0 + 1)
      ((height0 + 1 - (8 - y % 8)) / 8)
      (invertRow (GotoXY ⟨mem, 0, 0⟩ x (y - y % 8))
        (((255 : Nat) <<< (y % 8)) % 256) (width + 1))
      (y - y % 8) (8 - y % 8) rfl hy1align (by omega)
    have hrow1 := invertRow_mem (GotoXY ⟨mem, 0, 0⟩ x (y - y % 8))
      (((255 : Nat) <<< (y % 8)) % 256) (width + 1) hgalign hB hm1lt
    rw [hh2, hy2]
    rw [hrow1] at hm
    by_cases htail : 8 - y % 8 + 8 * ((height0 + 1 - (8 - y % 8)) / 8) < height0 + 1
    · rw [if_pos htail]
      -- bound the number of full pages so the tail cursor row does not wrap
      have hdm := Nat.div_add_mod (height0 + 1 - (8 - y % 8)) 8
      have h8K : 8 * ((height0 + 1 - (8 - y % 8)) / 8) ≤ height0 + 1 - (8 - y % 8) := by
        omega
      have hnw : y - y % 8 + 8 * ((height0 + 1 - (8 - y % 8)) / 8) + 8 < 256 := by
        omega
      have htmod : (y - y % 8 + 8 * ((height0 + 1 - (8 - y % 8)) / 8) + 8) % 256
          = y - y % 8 + 8 * ((height0 + 1 - (8 - y % 8)) / 8) + 8 :=
        Nat.mod_eq_of_lt hnw
      have htalign : (y - y % 8 + 8 * ((height0 + 1 - (8 - y % 8)) / 8) + 8) % 8 = 0 := by
        omega
      rw [htmod]
      generalize hgen : (invertFull
          (invertRow (GotoXY ⟨mem, 0, 0⟩ x (y - y % 8))
            (((255 : Nat) <<< (y % 8)) % 256) (width + 1))
          x width (y - y % 8) (8 - y % 8) (height0 + 1)).1 = rfst at hm ⊢
      have hBr : Bytes rfst.mem := by
        rw [hm]
        intro p c
        simp only [GotoXY]
        split_ifs with h1 h2 h3
        · exact compl8_lt_256 (xor_lt_256 (hB p c) hm1lt)
        · exact compl8_lt_256 (hB p c)
        · exact xor_lt_256 (hB p c) hm1lt
        · exact hB p c
      rw [invertRow_mem
        (GotoXY rfst x (y - y % 8 + 8 * ((height0 + 1 - (8 - y % 8)) / 8) + 8))
        (compl8 ((255 <<< (height0 + 1 - (8 - y % 8 + 8 * ((height0 + 1 - (8 - y % 8)) / 8)))) % 256))
        (width + 1)
        htalign
        hBr
        (compl8_lt_256 (Nat.mod_lt _ (by norm_num)))]
      funext p c
      simp only [GotoXY]
      rw [hm]
      simp only [GotoXY]
      split_ifs with h1 h2 h3 h4 h5 h6 h7 h8 h9 <;>
        first | rfl | (exfalso; omega) | simp
    · rw [if_neg htail, hm]
      funext p c
      simp only [GotoXY]
      split_ifs with h1 h2 h3 h4 h5 h6 h7 <;> first | rfl | (exfalso; omega) | simp

theorem Bytes_InvertRect (mem : Mem) (x y width height0 : Nat)
    (hB : Bytes mem) (hy : y < 256) (h255 : height0 + 1 < 256)
    (hyh : y + (height0 + 1) ≤ 256) :
    Bytes (InvertRect mem x y width height0) := by
  rw [InvertRect_xor mem x y width height0 hB hy h255 hyh]
  intro p c
  exact xor_lt_256 (hB p c) (invertRectMask_lt_256 x y width height0 p c)

/-- C1: on a canvas of `W × H` pixels (each dimension at most 256, as
both are held in `uint8_t`), for every in-range region
(`x + w < W`, `y + h < H`) and every byte-bounded pixel memory,
applying `InvertRect(x, y, w, h)` twice restores pixel memory exactly.
This covers regions inside one page, spanning several full pages, and
with partial top and/or bottom pages, since `x, y, w, h` are arbitrary
within range. -/
theorem InvertRect_height_wrap (mem : Mem) (x width : Nat) (hB : Bytes mem) :
    InvertRect mem x 0 width 255 = mem := by
  unfold InvertRect
  have hz : ((255 : Nat) + 1) % 256 = 0 := by norm_num
  have hsh : ((255 : Nat) >>> (8 - 0)) = 0 := by decide
  simp only [hz, Nat.zero_mod, Nat.sub_zero, Nat.sub_self, hsh]
  norm_num
  rw [invertFull, dif_neg (by omega)]
  show (invertRow (GotoXY ⟨mem, 0, 0⟩ x 0) 0 (width + 1)).mem = mem
  rw [invertRow_mem (GotoXY ⟨mem, 0, 0⟩ x 0) 0 (width + 1) rfl hB (by norm_num)]
  funext p c
  split_ifs with h
  · simp [GotoXY]
  · rfl

/-- C1: on a canvas of `W × H` pixels (each dimension at most 256, as
both are held in `uint8_t`), for every in-range region
(`x + w < W`, `y + h < H`) and every byte-bounded pixel memory,
applying `InvertRect(x, y, w, h)` twice restores pixel memory exactly.
This covers regions inside one page, spanning several full pages, and
with partial top and/or bottom pages, since `x, y, w, h` are arbitrary
within range. -/
theorem c1_invertRect_involution (W H : Nat) (mem : Mem)
    (x y width height0 : Nat) (hB : Bytes mem)
    (hW : W ≤ 256) (hH : H ≤ 256)
    (hx : x + width < W) (hyr : y + height0 < H) :
    InvertRect (InvertRect mem x y width height0) x y width height0 = mem := by
  by_cases h255 : height0 + 1 < 256
  · have hy : y < 256 := by omega
    have hyh : y + (height0 + 1) ≤ 256 := by omega
    have hB2 : Bytes (InvertRect mem x y width height0) :=
      Bytes_InvertRect mem x y width height0 hB hy h255 hyh
    rw [InvertRect_xor mem x y width height0 hB hy h255 hyh] at hB2 ⊢
    rw [InvertRect_xor _ x y width height0 hB2 hy h255 hyh]
    funext p c
    rw [Nat.xor_assoc, Nat.xor_self, Nat.xor_zero]
  · -- `height = 255` forces `y = 0`, and `height++` wraps to 0: a no-op
    have hh : height0 = 255 := by omega
    have hy0 : y = 0 := by omega
    subst hh
    subst hy0
    rw [InvertRect_height_wrap mem x width hB,
      InvertRect_height_wrap mem x width hB]

/-- Witness for C1 on the 128×64 canvas with the spec's example region
`x=1, w=2, y=3, h=10` (three pages, two of them partial), on the
memory holding `0xAA` everywhere. -/
theorem c1_invertRect_involution_witness :
    InvertRect (InvertRect (fun _ _ => 170) 1 3 2 10) 1 3 2 10
      = (fun _ _ => 170) :=
  c1_invertRect_involution 128 64 (fun _ _ => 170) 1 3 2 10
    (fun _ _ => by norm_num) (by decide) (by decide) (by decide) (by decide)

/-- C6: `SetDisplayMode(v)` is a no-op (pixel memory and flag both
unchanged, no invert performed) when the stored `Inverted` flag already
equals `v`; otherwise it inverts the entire canvas via
`InvertRect(0, 0, W-1, H-1)` and stores `v`. -/
theorem c6_setDisplayMode_cases (W H : Nat) (g : GlcdState) (v : Nat) :
    (g.Inverted = v → SetDisplayMode W H g v = g)
    ∧ (g.Inverted ≠ v →
        SetDisplayMode W H g v
          = { mem := InvertRect g.mem 0 0 (W - 1) (H - 1), Inverted := v }) := by
  constructor <;> intro h
  · unfold SetDisplayMode
    rw [if_neg (by simp [h])]
  · unfold SetDisplayMode
    rw [if_pos h]

/-- Witness for C6: same-mode call returns the state unchanged;
different-mode call inverts the whole 128×64 canvas and stores the
flag. -/
theorem c6_setDisplayMode_cases_witness :
    SetDisplayMode 128 64 ⟨(fun _ _ => 0), 0⟩ 0 = ⟨(fun _ _ => 0), 0⟩
    ∧ SetDisplayMode 128 64 ⟨(fun _ _ => 0), 0⟩ 1
        = ⟨InvertRect (fun _ _ => 0) 0 0 127 63, 1⟩ :=
  ⟨(c6_setDisplayMode_cases 128 64 ⟨(fun _ _ => 0), 0⟩ 0).1 rfl,
    (c6_setDisplayMode_cases 128 64 ⟨(fun _ _ => 0), 0⟩ 1).2 (by decide)⟩

/-! ## `glcd::DrawLine` (glcd.cpp lines 175-218) -/

/-- `_GLCD_absDiff(x,y)` (glcd.cpp line 147). -/
def absDiff (a b : Nat) : Nat := if a > b then a - b else b - a

/-- `int8_t` wrap-around: the value of an `int8_t` holding `i`. -/
def wrap8 (i : Int) : Int := (i + 128) % 256 - 128

/-- The Bresenham plotting loop of `DrawLine` (glcd.cpp lines 208-217),
iterated a fixed number of times (`x` runs from `x1` to `x2`): plot the
dot (transposed when `steep`), accumulate the error, step `y` when the
error underflows.  `error` is an `int8_t`, `x` and `y` are `uint8_t`. -/
def drawLineLoop (mem : Mem) (steep : Bool) (color deltax deltay : Nat)
    (ystep : Int) (x y : Nat) (error : Int) : Nat → Mem
  | 0 => mem
  | n + 1 =>
    let mem' := if steep then SetDot mem y x color else SetDot mem x y color
    let error' := wrap8 (error - deltay)
    if error' < 0 then
      drawLineLoop mem' steep color deltax deltay ystep ((x + 1) % 256)
        ((((y : Int) + ystep) % 256).toNat) (wrap8 (error' + deltax)) n
    else
      drawLineLoop mem' steep color deltax deltay ystep ((x + 1) % 256)
        y error' n

/-- The body of `DrawLine` after normalisation (glcd.cpp lines 202-217):
`deltax = x2 - x1`, `deltay = absDiff(y2, y1)`, `error = deltax / 2`,
`ystep = ±1`, then the plotting loop over `x1 .. x2`. -/
def drawLineCore (mem : Mem) (steep : Bool) (color x1 y1 x2 y2 : Nat) : Mem :=
  let deltax := x2 - x1
  let deltay := absDiff y2 y1
  let error : Int := (deltax / 2 : Nat)
  let ystep : Int := if y1 < y2 then 1 else -1
  drawLineLoop mem steep color deltax deltay ystep x1 y1 error (x2 - x1 + 1)

/-- `glcd::DrawLine(x1, y1, x2, y2, color)` (glcd.cpp lines 175-218),
parametric in the configured `DISPLAY_WIDTH` and `DISPLAY_HEIGHT`:
out-of-range coordinates are coerced to 0, the steep line is transposed,
endpoints are ordered by `x`, then the Bresenham loop runs. -/
def DrawLine (W H : Nat) (mem : Mem) (x1 y1 x2 y2 color : Nat) : Mem :=
  let x1 := if x1 ≥ W then 0 else x1
  let x2 := if x2 ≥ W then 0 else x2
  let y1 := if y1 ≥ H then 0 else y1
  let y2 := if y2 ≥ H then 0 else y2
  let steep := absDiff y1 y2 > absDiff x1 x2
  let p1 := if steep then (y1, x1) else (x1, y1)
  let p2 := if steep then (y2, x2) else (x2, y2)
  let q := if p1.1 > p2.1 then (p2, p1) else (p1, p2)
  drawLineCore mem (decide steep) color q.1.1 q.1.2 q.2.1 q.2.2

theorem absDiff_comm (a b : Nat) : absDiff a b = absDiff b a := by
  unfold absDiff
  split_ifs <;> omega

theorem absDiff_eq_zero_iff {a b : Nat} : absDiff a b = 0 ↔ a = b := by
  unfold absDiff
  split_ifs <;> omega

/-- Ordering a pair of endpoints by first coordinate is symmetric in the
argument order, provided endpoints with equal first coordinates are
equal. -/
theorem orderPoints_symm (a b : Nat × Nat) (hne : a.1 = b.1 → a.2 = b.2) :
    (if a.1 > b.1 then (b, a) else (a, b))
      = (if b.1 > a.1 then (a, b) else (b, a)) := by
  rcases Nat.lt_trichotomy a.1 b.1 with h | h | h
  · rw [if_neg (by omega), if_pos (by omega)]
  · have h2 := hne h
    rw [if_neg (by omega), if_neg (by omega)]
    obtain ⟨a1, a2⟩ := a
    obtain ⟨b1, b2⟩ := b
    simp only at h h2
    rw [h, h2]
  · rw [if_pos (by omega), if_neg (by omega)]

/-- C2: `DrawLine` is symmetric in its endpoints — swapping `(x1,y1)`
with `(x2,y2)` produces exactly the same resulting pixel memory (hence
the same set of painted pixels), for every pair of endpoints, in
particular for all pairs within canvas bounds. -/
theorem c2_drawLine_symmetric (W H : Nat) (mem : Mem)
    (x1 y1 x2 y2 color : Nat) :
    DrawLine W H mem x1 y1 x2 y2 color = DrawLine W H mem x2 y2 x1 y1 color := by
  simp only [DrawLine]
  generalize (if x1 ≥ W then 0 else x1) = a
  generalize (if y1 ≥ H then 0 else y1) = b
  generalize (if x2 ≥ W then 0 else x2) = c
  generalize (if y2 ≥ H then 0 else y2) = d
  rw [absDiff_comm d b, absDiff_comm c a]
  by_cases hst : absDiff b d > absDiff a c
  · simp only [hst, decide_True, if_true]
    rw [orderPoints_symm (b, a) (d, c) (fun hqq => by
      exfalso
      rw [show b = d from hqq] at hst
      rw [absDiff_eq_zero_iff.mpr rfl] at hst
      omega)]
  · simp only [hst, decide_False, if_false]
    rw [orderPoints_symm (a, b) (c, d) (fun hqq => by
      have h0 : absDiff a c = 0 := absDiff_eq_zero_iff.mpr hqq
      rw [h0] at hst
      have h1 : absDiff b d = 0 := by omega
      exact absDiff_eq_zero_iff.mp h1)]

/-- C7: every coordinate at or beyond its canvas bound is replaced by 0
before the line is computed — `DrawLine` on arbitrary coordinates equals
`DrawLine` on the coerced coordinates (for a nonempty canvas, so that
the coercion is idempotent) — and the call is total (it is a function,
never rejecting its input); in-range coordinates are left unmodified,
the coercion being the identity on them. -/
theorem c7_drawLine_clamps (W H : Nat) (mem : Mem) (x1 y1 x2 y2 color : Nat)
    (hW : 0 < W) (hH : 0 < H) :
    (DrawLine W H mem x1 y1 x2 y2 color
      = DrawLine W H mem (if x1 ≥ W then 0 else x1) (if y1 ≥ H then 0 else y1)
          (if x2 ≥ W then 0 else x2) (if y2 ≥ H then 0 else y2) color)
    ∧ (x1 < W → y1 < H → x2 < W → y2 < H →
        ((if x1 ≥ W then 0 else x1) = x1 ∧ (if y1 ≥ H then 0 else y1) = y1
          ∧ (if x2 ≥ W then 0 else x2) = x2 ∧ (if y2 ≥ H then 0 else y2) = y2)) := by
  constructor
  · simp only [DrawLine]
    have hc : ∀ (B v : Nat), 0 < B →
        (if (if v ≥ B then 0 else v) ≥ B then 0 else if v ≥ B then 0 else v)
          = (if v ≥ B then 0 else v) := by
      intro B v hB
      split_ifs <;> omega
    rw [hc W x1 hW, hc W x2 hW, hc H y1 hH, hc H y2 hH]
  · intro h1 h2 h3 h4
    refine ⟨?_, ?_, ?_, ?_⟩ <;> (rw [if_neg]; omega)

/-- Witness for C7 on the 128×64 canvas: endpoint `(200, 10)` has its x
coordinate out of range and is coerced to `(0, 10)`; `(5, 70)` has its y
coordinate out of range and is coerced to `(5, 0)`. -/
theorem c7_drawLine_clamps_witness :
    (DrawLine 128 64 (fun _ _ => 0) 200 10 5 70 255
      = DrawLine 128 64 (fun _ _ => 0) (if 200 ≥ 128 then 0 else 200)
          (if 10 ≥ 64 then 0 else 10) (if 5 ≥ 128 then 0 else 5)
          (if 70 ≥ 64 then 0 else 70) 255)
    ∧ (200 < 128 → 10 < 64 → 5 < 128 → 70 < 64 →
        ((if 200 ≥ 128 then 0 else 200) = 200 ∧ (if 10 ≥ 64 then 0 else 10) = 10
          ∧ (if 5 ≥ 128 then 0 else 5) = 5 ∧ (if 70 ≥ 64 then 0 else 70) = 70)) :=
  c7_drawLine_clamps 128 64 (fun _ _ => 0) 200 10 5 70 255
    (by decide) (by decide)

/-! ## `glcd::DrawHLine`, `glcd::DrawVLine`, `glcd::FillRect`,
`glcd::DrawRect` (glcd.cpp lines 244-249, 336-338, 519-545) -/

/-- `glcd::DrawVLine(x, y, height, color)` (glcd.cpp lines 519-522):
`SetPixels(x, y, x, y+height, color)`. -/
def DrawVLine (mem : Mem) (x y height color : Nat) : Mem :=
  SetPixels mem x y x (add8 y height) color

/-- `glcd::DrawHLine(x, y, width, color)` (glcd.cpp lines 542-545):
`SetPixels(x, y, x+width, y, color)`. -/
def DrawHLine (mem : Mem) (x y width color : Nat) : Mem :=
  SetPixels mem x y (add8 x width) y color

/-- `glcd::FillRect(x, y, width, height, color)` (glcd.cpp lines
336-338): `SetPixels(x, y, x+width, y+height, color)`. -/
def FillRect (mem : Mem) (x y width height color : Nat) : Mem :=
  SetPixels mem x y (add8 x width) (add8 y height) color

/-- `glcd::DrawRect(x, y, width, height, color)` (glcd.cpp lines
244-249): top and bottom horizontal lines, left and right vertical
lines. -/
def DrawRect (mem : Mem) (x y width height color : Nat) : Mem :=
  let m1 := DrawHLine mem x y width color
  let m2 := DrawHLine m1 x (add8 y height) width color
  let m3 := DrawVLine m2 x y height color
  DrawVLine m3 (add8 x width) y height color

theorem boxMask_testBit_iff {lo hi p b : Nat} (hb : b < 8) :
    (boxMask lo hi p).testBit b = true ↔ (lo ≤ 8 * p + b ∧ 8 * p + b ≤ hi) := by
  unfold boxMask
  by_cases hab : max lo (8 * p) ≤ min hi (8 * p + 7)
  · rw [if_pos hab]
    rw [Nat.testBit_shiftLeft, Nat.one_shiftLeft, Nat.testBit_two_pow_sub_one]
    simp only [Bool.and_eq_true, decide_eq_true_eq, ge_iff_le]
    omega
  · rw [if_neg hab]
    simp only [Nat.zero_testBit]
    constructor
    · intro hfalse
      exact absurd hfalse (by simp)
    · rintro ⟨h1, h2⟩
      exfalso
      omega

/-- Reading a pixel after a FOREGROUND `SetPixels`: the pixel is set
exactly when it was set before or lies in the box. -/
theorem getDot_SetPixels_BLACK (mem : Mem) (x y x2 y2 cx ry : Nat) :
    getDot (SetPixels mem x y x2 y2 BLACK) cx ry = true
      ↔ (getDot mem cx ry = true ∨ (x ≤ cx ∧ cx ≤ x2 ∧ y ≤ ry ∧ ry ≤ y2)) := by
  have hb : ry % 8 < 8 := Nat.mod_lt _ (by norm_num)
  have hdm : 8 * (ry / 8) + ry % 8 = ry := by omega
  unfold getDot SetPixels
  by_cases hcol : x ≤ cx ∧ cx ≤ x2
  · rw [if_pos hcol, if_pos rfl]
    rw [Nat.testBit_or]
    simp only [Bool.or_eq_true]
    rw [boxMask_testBit_iff hb, hdm]
    constructor
    · rintro (h | ⟨h1, h2⟩)
      · exact Or.inl h
      · exact Or.inr ⟨hcol.1, hcol.2, h1, h2⟩
    · rintro (h | ⟨_, _, h1, h2⟩)
      · exact Or.inl h
      · exact Or.inr ⟨h1, h2⟩
  · rw [if_neg hcol]
    constructor
    · exact Or.inl
    · rintro (h | ⟨h1, h2, _⟩)
      · exact h
      · exact absurd ⟨h1, h2⟩ hcol

/-- C3: for every in-range `x, y, w, h`, on a blank canvas the pixels
painted by `FillRect(x,y,w,h,BLACK)` are exactly the closed box
`[x, x+w] × [y, y+h]`, every pixel painted by `DrawRect(x,y,w,h,BLACK)`
lies inside that same box, and the outline reaches all four of its
edges (the full top and bottom rows `y` and `y+h` over columns
`x .. x+w`, and the full left and right columns `x` and `x+w` over rows
`y .. y+h`): outline and fill occupy exactly the same
`(w+1) × (h+1)`-pixel bounding box. -/
theorem c3_drawRect_fillRect_same_box (x y width height : Nat)
    (hx : x + width < 256) (hy : y + height < 256) :
    (∀ cx ry, getDot (FillRect (fun _ _ => 0) x y width height BLACK) cx ry = true
        ↔ (x ≤ cx ∧ cx ≤ x + width ∧ y ≤ ry ∧ ry ≤ y + height))
    ∧ (∀ cx ry, getDot (DrawRect (fun _ _ => 0) x y width height BLACK) cx ry = true
        → (x ≤ cx ∧ cx ≤ x + width ∧ y ≤ ry ∧ ry ≤ y + height))
    ∧ (∀ cx, x ≤ cx → cx ≤ x + width →
        getDot (DrawRect (fun _ _ => 0) x y width height BLACK) cx y = true
        ∧ getDot (DrawRect (fun _ _ => 0) x y width height BLACK) cx (y + height) = true)
    ∧ (∀ ry, y ≤ ry → ry ≤ y + height →
        getDot (DrawRect (fun _ _ => 0) x y width height BLACK) x ry = true
        ∧ getDot (DrawRect (fun _ _ => 0) x y width height BLACK) (x + width) ry = true) := by
  have ha1 : add8 x width = x + width := Nat.mod_eq_of_lt hx
  have ha2 : add8 y height = y + height := Nat.mod_eq_of_lt hy
  have hb0 : ∀ cx ry, (getDot (fun _ _ => 0) cx ry = true) ↔ False := by
    intro cx ry
    simp [getDot]
  have hchar : ∀ cx ry,
      getDot (DrawRect (fun _ _ => 0) x y width height BLACK) cx ry = true
        ↔ ((x ≤ cx ∧ cx ≤ x + width ∧ y ≤ ry ∧ ry ≤ y)
          ∨ (x ≤ cx ∧ cx ≤ x + width ∧ y + height ≤ ry ∧ ry ≤ y + height)
          ∨ (x ≤ cx ∧ cx ≤ x ∧ y ≤ ry ∧ ry ≤ y + height)
          ∨ (x + width ≤ cx ∧ cx ≤ x + width ∧ y ≤ ry ∧ ry ≤ y + height)) := by
    intro cx ry
    unfold DrawRect DrawVLine DrawHLine
    rw [ha1, ha2]
    rw [getDot_SetPixels_BLACK, getDot_SetPixels_BLACK, getDot_SetPixels_BLACK,
      getDot_SetPixels_BLACK, hb0]
    simp only [false_or]
    omega
  refine ⟨?_, ?_, ?_, ?_⟩
  · intro cx ry
    unfold FillRect
    rw [getDot_SetPixels_BLACK, hb0]
    simp only [ha1, ha2, false_or]
  · intro cx ry h
    rw [hchar] at h
    omega
  · intro cx h1 h2
    rw [hchar, hchar]
    omega
  · intro ry h1 h2
    rw [hchar, hchar]
    omega

/-- Witness for C3 at `x=5, y=9, w=7, h=11`: the filled box and the
outline both span columns `5..12` and rows `9..20`. -/
theorem c3_drawRect_fillRect_same_box_witness :
    (∀ cx ry, getDot (FillRect (fun _ _ => 0) 5 9 7 11 BLACK) cx ry = true
        ↔ (5 ≤ cx ∧ cx ≤ 5 + 7 ∧ 9 ≤ ry ∧ ry ≤ 9 + 11))
    ∧ (∀ cx ry, getDot (DrawRect (fun _ _ => 0) 5 9 7 11 BLACK) cx ry = true
        → (5 ≤ cx ∧ cx ≤ 5 + 7 ∧ 9 ≤ ry ∧ ry ≤ 9 + 11))
    ∧ (∀ cx, 5 ≤ cx → cx ≤ 5 + 7 →
        getDot (DrawRect (fun _ _ => 0) 5 9 7 11 BLACK) cx 9 = true
        ∧ getDot (DrawRect (fun _ _ => 0) 5 9 7 11 BLACK) cx (9 + 11) = true)
    ∧ (∀ ry, 9 ≤ ry → ry ≤ 9 + 11 →
        getDot (DrawRect (fun _ _ => 0) 5 9 7 11 BLACK) 5 ry = true
        ∧ getDot (DrawRect (fun _ _ => 0) 5 9 7 11 BLACK) (5 + 7) ry = true) :=
  c3_drawRect_fillRect_same_box 5 9 7 11 (by decide) (by decide)

/-! ## `glcd::DrawBitmap` (glcd.cpp lines 452-497) -/

/-- A bitmap resource: the function from byte index to byte, index 0
holding `width`, index 1 holding `height`, followed by the page-major
data bytes (`ReadPgmData` reads and the pointer advances). -/
def Bitmap : Type := Nat → Nat

/-- The inner column loop of `DrawBitmap` (glcd.cpp lines 489-495): `n`
iterations of `displayData = ReadPgmData(bitmap++); if(color == BLACK)
WriteData(displayData); else WriteData(~displayData);`. -/
def bmRow (bm : Bitmap) (color : Nat) (s : GState) (idx : Nat) : Nat → GState
  | 0 => s
  | i + 1 =>
    let displayData := bm idx
    let s' := if color = BLACK then WriteData s displayData
              else WriteData s (compl8 displayData)
    bmRow bm color s' (idx + 1) i

/-- The page-row loop of `DrawBitmap` (glcd.cpp lines 487-496): for each
of the remaining `n` page rows (`j` counts from 0), position the cursor
at `(x, y + j*8)` and write `width` bytes read sequentially from the
bitmap. -/
def bmPageLoop (bm : Bitmap) (x y color width : Nat) :
    GState → Nat → Nat → Nat → GState
  | s, _, _, 0 => s
  | s, j, idx, n + 1 =>
    let s1 := GotoXY s x ((y + j * 8) % 256)
    let s2 := bmRow bm color s1 idx width
    bmPageLoop bm x y color width s2 (j + 1) (idx + width) n

/-- `glcd::DrawBitmap(bitmap, x, y, color)` (glcd.cpp lines 452-497),
with the `BITMAP_FIX` pre-clear (lines 481-484) enabled as in the
source. -/
def DrawBitmap (mem : Mem) (bm : Bitmap) (x y color : Nat) : Mem :=
  let width := bm 0
  let height := bm 1
  let mem1 := if y &&& 7 ≠ 0 ∨ height &&& 7 ≠ 0
              then FillRect mem x y width height WHITE else mem
  (bmPageLoop bm x y color width ⟨mem1, 0, 0⟩ 0 2 (height / 8)).mem

theorem and_7_eq_mod_8 (n : Nat) : n &&& 7 = n % 8 := by
  have h7 : (7 : Nat) = 2 ^ 3 - 1 := by norm_num
  have h8 : (8 : Nat) = 2 ^ 3 := by norm_num
  rw [h7, h8, Nat.and_pow_two_sub_one_eq_mod]

/-- C10: for a bitmap whose height header byte is below 8, the page-row
loop of `DrawBitmap` runs zero times (`height/8 = 0`), so no bitmap data
byte is written; the pixel memory changes exactly by the background
pre-clear, which fires when the height is nonzero (or the placement is
unaligned) and otherwise nothing changes at all. -/
theorem c10_drawBitmap_small_height (mem : Mem) (bm : Bitmap)
    (x y color : Nat) (hh : bm 1 < 8) :
    DrawBitmap mem bm x y color
      = if y % 8 ≠ 0 ∨ bm 1 ≠ 0
        then FillRect mem x y (bm 0) (bm 1) WHITE
        else mem := by
  simp only [DrawBitmap]
  have hdiv : bm 1 / 8 = 0 := Nat.div_eq_of_lt hh
  rw [hdiv]
  have hmod : bm 1 % 8 = bm 1 := Nat.mod_eq_of_lt hh
  rw [and_7_eq_mod_8, and_7_eq_mod_8, hmod]
  by_cases hc : y % 8 ≠ 0 ∨ bm 1 ≠ 0
  · rw [if_pos hc]
    rfl
  · rw [if_neg hc]
    rfl

/-- Witness for C10: a 3-wide, 5-tall bitmap drawn at `(2, 4)`: the
result is exactly the `WHITE` pre-clear of the destination rectangle,
with no data bytes written. -/
theorem c10_drawBitmap_small_height_witness :
    DrawBitmap (fun _ _ => 9) (fun i => if i = 0 then 3 else if i = 1 then 5 else 255) 2 4 BLACK
      = if 4 % 8 ≠ 0 ∨ (fun i => if i = 0 then 3 else if i = 1 then 5 else 255) 1 ≠ 0
        then FillRect (fun _ _ => 9) 2 4
            ((fun i => if i = 0 then 3 else if i = 1 then 5 else 255) 0)
            ((fun i => if i = 0 then 3 else if i = 1 then 5 else 255) 1) WHITE
        else (fun _ _ => 9) :=
  c10_drawBitmap_small_height (fun _ _ => 9)
    (fun i => if i = 0 then 3 else if i = 1 then 5 else 255) 2 4 BLACK (by norm_num)

/-! ### Pixel-level effect of the bitmap write primitives -/

theorem testBit_shl_mod (d off b : Nat) (hb : b < 8) :
    ((d <<< off) % 256).testBit b = (decide (off ≤ b) && d.testBit (b - off)) := by
  rw [show (256 : Nat) = 2 ^ 8 from rfl, Nat.testBit_mod_two_pow,
    Nat.testBit_shiftLeft]
  simp only [hb, decide_True, Bool.true_and, ge_iff_le]

/-- The unaligned branch of `WriteData` as a double byte update: the low
part of the byte is OR-ed into page `cy/8` and the high part into page
`cy/8 + 1`. -/
theorem WriteData_unaligned (s : GState) (d : Nat) (hoff : s.cy % 8 ≠ 0) :
    WriteData s d = { s with
      mem := upd (upd s.mem (s.cy / 8) s.cx
          (s.mem (s.cy / 8) s.cx ||| ((d <<< (s.cy % 8)) % 256)))
        (s.cy / 8 + 1) s.cx
        (s.mem (s.cy / 8 + 1) s.cx ||| (d >>> (8 - s.cy % 8))),
      cx := s.cx + 1 } := by
  have hother : (upd s.mem (s.cy / 8) s.cx
        (s.mem (s.cy / 8) s.cx ||| ((d <<< (s.cy % 8)) % 256)))
      (s.cy / 8 + 1) s.cx = s.mem (s.cy / 8 + 1) s.cx := by
    unfold upd
    rw [if_neg]
    rintro ⟨h, _⟩
    omega
  simp only [WriteData, hoff, if_false]
  rw [hother]

/-- Writing one byte `d < 256` at the cursor affects exactly the pixels
of column `cx`, rows `cy .. cy+7`: on a page boundary the byte replaces
those eight pixels, otherwise its bits are OR-ed into them (split over
the two spanned pages); every other pixel is untouched. -/
theorem WriteData_getDot (s : GState) (d : Nat) (hd : d < 256) (cc rr : Nat) :
    getDot (WriteData s d).mem cc rr
      = if cc = s.cx ∧ s.cy ≤ rr ∧ rr < s.cy + 8 then
          (if s.cy % 8 = 0 then d.testBit (rr - s.cy)
           else getDot s.mem cc rr || d.testBit (rr - s.cy))
        else getDot s.mem cc rr := by
  have hrm : rr % 8 < 8 := Nat.mod_lt _ (by norm_num)
  by_cases hoff : s.cy % 8 = 0
  · have hmem : (WriteData s d).mem = upd s.mem (s.cy / 8) s.cx d := by
      rw [WriteData_aligned s d hoff]
    rw [hmem, if_pos hoff]
    unfold getDot upd
    by_cases hcc : cc = s.cx
    · subst hcc
      by_cases hpage : rr / 8 = s.cy / 8
      · have hin : s.cy ≤ rr ∧ rr < s.cy + 8 := by omega
        rw [if_pos (show rr / 8 = s.cy / 8 ∧ s.cx = s.cx from ⟨hpage, rfl⟩),
          if_pos (show s.cx = s.cx ∧ s.cy ≤ rr ∧ rr < s.cy + 8
            from ⟨rfl, hin.1, hin.2⟩)]
        congr 1
        omega
      · have hnin : ¬ (s.cx = s.cx ∧ s.cy ≤ rr ∧ rr < s.cy + 8) := by
          rintro ⟨_, h1, h2⟩
          omega
        rw [if_neg (show ¬ (rr / 8 = s.cy / 8 ∧ s.cx = s.cx)
            from fun h => hpage h.1),
          if_neg hnin]
    · rw [if_neg (show ¬ (rr / 8 = s.cy / 8 ∧ cc = s.cx) from fun h => hcc h.2),
        if_neg (show ¬ (cc = s.cx ∧ s.cy ≤ rr ∧ rr < s.cy + 8)
          from fun h => hcc h.1)]
  · have hmem : (WriteData s d).mem
        = upd (upd s.mem (s.cy / 8) s.cx
            (s.mem (s.cy / 8) s.cx ||| ((d <<< (s.cy % 8)) % 256)))
          (s.cy / 8 + 1) s.cx
          (s.mem (s.cy / 8 + 1) s.cx ||| (d >>> (8 - s.cy % 8))) := by
      rw [WriteData_unaligned s d hoff]
    rw [hmem, if_neg hoff]
    unfold getDot upd
    by_cases hcc : cc = s.cx
    · subst hcc
      by_cases hp1 : rr / 8 = s.cy / 8 + 1
      · rw [if_pos (show rr / 8 = s.cy / 8 + 1 ∧ s.cx = s.cx from ⟨hp1, rfl⟩),
          Nat.testBit_or, Nat.testBit_shiftRight]
        by_cases hb : rr % 8 < s.cy % 8
        · have hin : s.cy ≤ rr ∧ rr < s.cy + 8 := by omega
          rw [if_pos (show s.cx = s.cx ∧ s.cy ≤ rr ∧ rr < s.cy + 8
              from ⟨rfl, hin.1, hin.2⟩), hp1]
          congr 1
          congr 1
          omega
        · have hnin : ¬ (s.cx = s.cx ∧ s.cy ≤ rr ∧ rr < s.cy + 8) := by
            rintro ⟨_, h1, h2⟩
            omega
          rw [if_neg hnin,
            testBit_high_false hd (show 8 ≤ 8 - s.cy % 8 + rr % 8 by omega),
            Bool.or_false, hp1]
      · rw [if_neg (show ¬ (rr / 8 = s.cy / 8 + 1 ∧ s.cx = s.cx)
            from fun h => hp1 h.1)]
        by_cases hp0 : rr / 8 = s.cy / 8
        · rw [if_pos (show rr / 8 = s.cy / 8 ∧ s.cx = s.cx from ⟨hp0, rfl⟩),
            Nat.testBit_or, testBit_shl_mod d _ _ hrm]
          by_cases hb : s.cy % 8 ≤ rr % 8
          · have hin : s.cy ≤ rr ∧ rr < s.cy + 8 := by omega
            rw [if_pos (show s.cx = s.cx ∧ s.cy ≤ rr ∧ rr < s.cy + 8
                from ⟨rfl, hin.1, hin.2⟩), hp0]
            simp only [hb, decide_True, Bool.true_and]
            congr 2
            omega
          · have hnin : ¬ (s.cx = s.cx ∧ s.cy ≤ rr ∧ rr < s.cy + 8) := by
              rintro ⟨_, h1, h2⟩
              omega
            have hdec : decide (s.cy % 8 ≤ rr % 8) = false := by
              simp [hb]
            rw [if_neg hnin, hdec, Bool.false_and, Bool.or_false, hp0]
        · have hnin : ¬ (s.cx = s.cx ∧ s.cy ≤ rr ∧ rr < s.cy + 8) := by
            rintro ⟨_, h1, h2⟩
            omega
          rw [if_neg (show ¬ (rr / 8 = s.cy / 8 ∧ s.cx = s.cx)
              from fun h => hp0 h.1),
            if_neg hnin]
    · rw [if_neg (show ¬ (rr / 8 = s.cy / 8 + 1 ∧ cc = s.cx)
          from fun h => hcc h.2),
        if_neg (show ¬ (rr / 8 = s.cy / 8 ∧ cc = s.cx) from fun h => hcc h.2),
        if_neg (show ¬ (cc = s.cx ∧ s.cy ≤ rr ∧ rr < s.cy + 8)
          from fun h => hcc h.1)]

theorem WriteData_cx (s : GState) (d : Nat) : (WriteData s d).cx = s.cx + 1 := by
  unfold WriteData
  by_cases h : s.cy % 8 = 0 <;> simp [h]

theorem WriteData_cy (s : GState) (d : Nat) : (WriteData s d).cy = s.cy := by
  unfold WriteData
  by_cases h : s.cy % 8 = 0 <;> simp [h]

/-- One bitmap data row of `n` bytes paints column `cc`, row `rr` of the
band `[cx, cx+n) × [cy, cy+8)` with bit `rr - cy` of the byte read at
index `idx + (cc - cx)` (complemented unless the color is BLACK):
replacing the band's pixels when the cursor is page-aligned, OR-ing into
them otherwise; all other pixels keep their value. -/
theorem bmRow_getDot (bm : Bitmap) (color : Nat) (hbm : ∀ k, bm k < 256) :
    ∀ (n : Nat) (s : GState) (idx cc rr : Nat),
    getDot (bmRow bm color s idx n).mem cc rr
      = if s.cx ≤ cc ∧ cc < s.cx + n ∧ s.cy ≤ rr ∧ rr < s.cy + 8 then
          (if s.cy % 8 = 0 then
            (if color = BLACK then bm (idx + (cc - s.cx))
             else compl8 (bm (idx + (cc - s.cx)))).testBit (rr - s.cy)
           else getDot s.mem cc rr
             || (if color = BLACK then bm (idx + (cc - s.cx))
                 else compl8 (bm (idx + (cc - s.cx)))).testBit (rr - s.cy))
        else getDot s.mem cc rr := by
  intro n
  induction n with
  | zero =>
    intro s idx cc rr
    have hno : ¬ (s.cx ≤ cc ∧ cc < s.cx + 0 ∧ s.cy ≤ rr ∧ rr < s.cy + 8) := by
      rintro ⟨h1, h2, _⟩
      omega
    rw [bmRow, if_neg hno]
  | succ n ih =>
    intro s idx cc rr
    have hsplit : (if color = BLACK then WriteData s (bm idx)
          else WriteData s (compl8 (bm idx)))
        = WriteData s (if color = BLACK then bm idx else compl8 (bm idx)) := by
      by_cases h : color = BLACK <;> simp [h]
    have hd : (if color = BLACK then bm idx else compl8 (bm idx)) < 256 := by
      by_cases h : color = BLACK
      · simpa [h] using hbm idx
      · simpa [h] using compl8_lt_256 (hbm idx)
    simp only [bmRow]
    rw [hsplit, ih, WriteData_cx, WriteData_cy,
      WriteData_getDot _ _ hd cc rr]
    split_ifs with h1 h2 h3 h4 h5 h6 h7 h8 <;>
      first
        | rfl
        | (exfalso; omega)
        | (rw [show idx + 1 + (cc - (s.cx + 1)) = idx + (cc - s.cx) from by omega])
        | (rw [show idx + (cc - s.cx) = idx from by omega])

/-- The page-row loop of `DrawBitmap` paints column `cc`, row `rr` of
the rectangle `[x, x+width) × [y + 8j, y + 8j + 8n)` with bit
`(rr - (y+8j)) % 8` of the data byte at index
`idx + ((rr - (y+8j))/8)·width + (cc - x)` (complemented unless BLACK):
replacing the pixels when `y` is page-aligned, OR-ing into them
otherwise; every other pixel keeps its value.  The bound keeps the
`uint8_t` row addresses from wrapping. -/
theorem bmPageLoop_getDot (bm : Bitmap) (x y color width : Nat)
    (hbm : ∀ k, bm k < 256) :
    ∀ (n : Nat) (s : GState) (j idx cc rr : Nat),
      y + j * 8 + n * 8 ≤ 256 →
      getDot (bmPageLoop bm x y color width s j idx n).mem cc rr
        = if x ≤ cc ∧ cc < x + width ∧ y + j * 8 ≤ rr ∧ rr < y + j * 8 + n * 8 then
            (if y % 8 = 0 then
              (if color = BLACK then
                 bm (idx + (rr - (y + j * 8)) / 8 * width + (cc - x))
               else compl8 (bm (idx + (rr - (y + j * 8)) / 8 * width
                 + (cc - x)))).testBit ((rr - (y + j * 8)) % 8)
             else getDot s.mem cc rr
               || (if color = BLACK then
                     bm (idx + (rr - (y + j * 8)) / 8 * width + (cc - x))
                   else compl8 (bm (idx + (rr - (y + j * 8)) / 8 * width
                     + (cc - x)))).testBit ((rr - (y + j * 8)) % 8))
          else getDot s.mem cc rr := by
  intro n
  induction n with
  | zero =>
    intro s j idx cc rr hnw
    have hno : ¬ (x ≤ cc ∧ cc < x + width ∧ y + j * 8 ≤ rr
        ∧ rr < y + j * 8 + 0 * 8) := by
      rintro ⟨_, _, h1, h2⟩
      omega
    rw [bmPageLoop, if_neg hno]
  | succ n ih =>
    intro s j idx cc rr hnw
    have hmod : (y + j * 8) % 256 = y + j * 8 := Nat.mod_eq_of_lt (by omega)
    simp only [bmPageLoop]
    rw [hmod]
    rw [ih (bmRow bm color (GotoXY s x (y + j * 8)) idx width)
      (j + 1) (idx + width) cc rr (by omega)]
    have hrow := bmRow_getDot bm color hbm width
      (GotoXY s x (y + j * 8)) idx cc rr
    simp only [GotoXY] at hrow ⊢
    rw [show (y + j * 8) % 8 = y % 8 from by omega] at hrow
    rw [hrow]
    split_ifs <;>
      first
        | rfl
        | (exfalso; omega)
        | (rw [show (rr - (y + j * 8)) / 8 = 0 from by omega,
            show (rr - (y + j * 8)) % 8 = rr - (y + j * 8) from by omega,
            Nat.zero_mul, Nat.add_zero])
        | (rw [show idx + width + (rr - (y + (j + 1) * 8)) / 8 * width + (cc - x)
              = idx + (rr - (y + j * 8)) / 8 * width + (cc - x) from by
              have hq : (rr - (y + j * 8)) / 8
                  = (rr - (y + (j + 1) * 8)) / 8 + 1 := by omega
              have hp : ((rr - (y + (j + 1) * 8)) / 8 + 1) * width
                  = (rr - (y + (j + 1) * 8)) / 8 * width + width := by ring
              rw [hq, hp]
              omega,
            show (rr - (y + (j + 1) * 8)) % 8 = (rr - (y + j * 8)) % 8
              from by omega])

theorem compl8_testBit {d b : Nat} (hb : b < 8) :
    (compl8 d).testBit b = !d.testBit b := by
  rw [compl8_eq_xor, Nat.testBit_xor, testBit_255]
  simp [hb]

/-- Reading a pixel after a BACKGROUND `SetPixels`: pixels in the box
are cleared, the rest keep their value. -/
theorem getDot_SetPixels_WHITE (mem : Mem) (x y x2 y2 cc rr : Nat) :
    getDot (SetPixels mem x y x2 y2 WHITE) cc rr
      = if x ≤ cc ∧ cc ≤ x2 ∧ y ≤ rr ∧ rr ≤ y2 then false
        else getDot mem cc rr := by
  have hb : rr % 8 < 8 := Nat.mod_lt _ (by norm_num)
  unfold getDot SetPixels
  by_cases hcol : x ≤ cc ∧ cc ≤ x2
  · rw [if_pos hcol, if_neg (show ¬ WHITE = BLACK by decide),
      Nat.testBit_and, Nat.testBit_xor, testBit_255]
    by_cases hrow : y ≤ rr ∧ rr ≤ y2
    · rw [if_pos ⟨hcol.1, hcol.2, hrow.1, hrow.2⟩]
      have hmask : (boxMask y y2 (rr / 8)).testBit (rr % 8) = true :=
        (boxMask_testBit_iff hb).mpr ⟨by omega, by omega⟩
      rw [hmask]
      simp [hb]
    · rw [if_neg (show ¬ (x ≤ cc ∧ cc ≤ x2 ∧ y ≤ rr ∧ rr ≤ y2)
          from fun h => hrow ⟨h.2.2.1, h.2.2.2⟩)]
      have hmask : (boxMask y y2 (rr / 8)).testBit (rr % 8) = false := by
        rcases Bool.eq_false_or_eq_true
            ((boxMask y y2 (rr / 8)).testBit (rr % 8)) with h | h
        · exact absurd ((boxMask_testBit_iff hb).mp h) (by omega)
        · exact h
      rw [hmask]
      simp [hb]
  · rw [if_neg hcol,
      if_neg (show ¬ (x ≤ cc ∧ cc ≤ x2 ∧ y ≤ rr ∧ rr ≤ y2)
        from fun h => hcol ⟨h.1, h.2.1⟩)]

/-- C5: for an in-range placement (both `x + width` and `y + height`
below 256, the `uint8_t` address space) and byte-valued bitmap data:
whenever `y mod 8 ≠ 0` or the bitmap height is not a multiple of 8,
`DrawBitmap` first clears the destination rectangle to background
(`FillRect(x, y, width, height, WHITE)`) and only then blits, and
afterwards every destination pixel `(x+i, y+r)` (for `i < width` and
`r < 8·(height/8)`, the rows the bitmap's data specify) equals exactly
the bitmap's bit — complemented when the color is BACKGROUND — with no
bleed-through from the pre-existing contents of pixel memory; when `y`
and `height` are both multiples of 8 no pre-clear is performed. -/
theorem c5_drawBitmap_preclear_exact (mem : Mem) (bm : Bitmap)
    (x y color : Nat) (hbm : ∀ k, bm k < 256)
    (hxw : x + bm 0 < 256) (hnw : y + bm 1 < 256) :
    ((y % 8 ≠ 0 ∨ bm 1 % 8 ≠ 0) →
      DrawBitmap mem bm x y color
        = (bmPageLoop bm x y color (bm 0)
            ⟨FillRect mem x y (bm 0) (bm 1) WHITE, 0, 0⟩ 0 2 (bm 1 / 8)).mem)
    ∧ (y % 8 = 0 → bm 1 % 8 = 0 →
      DrawBitmap mem bm x y color
        = (bmPageLoop bm x y color (bm 0) ⟨mem, 0, 0⟩ 0 2 (bm 1 / 8)).mem)
    ∧ ((y % 8 ≠ 0 ∨ bm 1 % 8 ≠ 0) →
      ∀ i r, i < bm 0 → r < 8 * (bm 1 / 8) →
        getDot (DrawBitmap mem bm x y color) (x + i) (y + r)
          = (if color = BLACK then (bm (2 + r / 8 * bm 0 + i)).testBit (r % 8)
             else !(bm (2 + r / 8 * bm 0 + i)).testBit (r % 8))) := by
  have h1 : (y % 8 ≠ 0 ∨ bm 1 % 8 ≠ 0) →
      DrawBitmap mem bm x y color
        = (bmPageLoop bm x y color (bm 0)
            ⟨FillRect mem x y (bm 0) (bm 1) WHITE, 0, 0⟩ 0 2 (bm 1 / 8)).mem := by
    intro hc
    simp only [DrawBitmap]
    rw [and_7_eq_mod_8, and_7_eq_mod_8, if_pos hc]
  have h2 : y % 8 = 0 → bm 1 % 8 = 0 →
      DrawBitmap mem bm x y color
        = (bmPageLoop bm x y color (bm 0) ⟨mem, 0, 0⟩ 0 2 (bm 1 / 8)).mem := by
    intro ha hb
    simp only [DrawBitmap]
    rw [and_7_eq_mod_8, and_7_eq_mod_8,
      if_neg (show ¬ (y % 8 ≠ 0 ∨ bm 1 % 8 ≠ 0) by
        rintro (h | h)
        · exact h ha
        · exact h hb)]
  refine ⟨h1, h2, ?_⟩
  intro hc i r hi hr
  rw [h1 hc]
  have hmem : (⟨FillRect mem x y (bm 0) (bm 1) WHITE, 0, 0⟩ : GState).mem
      = FillRect mem x y (bm 0) (bm 1) WHITE := rfl
  rw [bmPageLoop_getDot bm x y color (bm 0) hbm (bm 1 / 8)
      ⟨FillRect mem x y (bm 0) (bm 1) WHITE, 0, 0⟩ 0 2 (x + i) (y + r)
      (by omega)]
  rw [if_pos (show x ≤ x + i ∧ x + i < x + bm 0 ∧ y + 0 * 8 ≤ y + r
      ∧ y + r < y + 0 * 8 + bm 1 / 8 * 8 from by
      refine ⟨by omega, by omega, by omega, by omega⟩)]
  have hclr : getDot ((⟨FillRect mem x y (bm 0) (bm 1) WHITE, 0, 0⟩ : GState).mem)
      (x + i) (y + r) = false := by
    rw [hmem]
    unfold FillRect
    rw [getDot_SetPixels_WHITE,
      if_pos (show x ≤ x + i ∧ x + i ≤ add8 x (bm 0) ∧ y ≤ y + r
        ∧ y + r ≤ add8 y (bm 1) from by
        have ha : add8 x (bm 0) = x + bm 0 := Nat.mod_eq_of_lt hxw
        have hb2 : add8 y (bm 1) = y + bm 1 := Nat.mod_eq_of_lt hnw
        rw [ha, hb2]
        refine ⟨by omega, by omega, by omega, by omega⟩)]
  have hridx : y + r - (y + 0 * 8) = r := by omega
  have hcidx : x + i - x = i := by omega
  rw [hridx, hcidx]
  by_cases hal : y % 8 = 0
  · rw [if_pos hal]
    by_cases hcb : color = BLACK
    · rw [if_pos hcb, if_pos hcb]
    · rw [if_neg hcb, if_neg hcb, compl8_testBit (Nat.mod_lt _ (by norm_num))]
  · rw [if_neg hal, hclr, Bool.false_or]
    by_cases hcb : color = BLACK
    · rw [if_pos hcb, if_pos hcb]
    · rw [if_neg hcb, if_neg hcb, compl8_testBit (Nat.mod_lt _ (by norm_num))]

/-- Witness for C5: a 2-wide, 12-tall bitmap (doubly unaligned: `y = 5`
and height not a multiple of 8) blitted onto an all-FOREGROUND canvas;
destination pixel `(4, 11)` equals bit `6 % 8` of data byte
`2 + (6/8)·2 + 1 = 3` with no bleed-through from the seeded `0xFF`s. -/
theorem c5_drawBitmap_preclear_exact_witness :
    getDot (DrawBitmap (fun _ _ => 255)
        (fun i => if i = 0 then 2 else if i = 1 then 12 else 160) 3 5 BLACK)
        (3 + 1) (5 + 6)
      = (if BLACK = BLACK then
           ((fun i => if i = 0 then 2 else if i = 1 then 12 else 160)
             (2 + 6 / 8 * (fun i => if i = 0 then 2 else if i = 1 then 12 else 160) 0
               + 1)).testBit (6 % 8)
         else
           !((fun i => if i = 0 then 2 else if i = 1 then 12 else 160)
             (2 + 6 / 8 * (fun i => if i = 0 then 2 else if i = 1 then 12 else 160) 0
               + 1)).testBit (6 % 8)) :=
  (c5_drawBitmap_preclear_exact (fun _ _ => 255)
      (fun i => if i = 0 then 2 else if i = 1 then 12 else 160) 3 5 BLACK
      (by intro k; simp only []; split_ifs <;> norm_num)
      (by norm_num) (by norm_num)).2.2
    (by decide) 1 6 (by norm_num) (by norm_num)

/-! ## `glcd::FillCircle` (glcd.cpp lines 590-657) -/

/-- The fill loop of `FillCircle` (glcd.cpp lines 631-656): while `x < y`,
step the midpoint decision variables and draw the four vertical chords of
the iteration.  `f`, `ddF_x`, `ddF_y` are C `int`s, `x` and `y` are
`uint8_t` (`x++` cannot wrap because `x < y ≤ 255`, and `y--` cannot
underflow because `y > x ≥ 0`). -/
def fillCircleLoop (W H : Nat) (mem : Mem) (x0 y0 color : Nat)
    (f ddF_x ddF_y : Int) (x y : Nat) : Mem :=
  if hxy : x < y then
    let t : Nat × Int × Int :=
      if f ≥ 0 then (y - 1, ddF_y + 2, f + (ddF_y + 2)) else (y, ddF_y, f)
    let y2 := t.1
    let d2 := t.2.1
    let f1 := t.2.2
    let x2 := x + 1
    let dx2 := ddF_x + 2
    let f2 := f1 + dx2
    let m1 := DrawLine W H mem (add8 x0 x2) (add8 y0 y2) (add8 x0 x2) (sub8 y0 y2) color
    let m2 := DrawLine W H m1 (sub8 x0 x2) (add8 y0 y2) (sub8 x0 x2) (sub8 y0 y2) color
    let m3 := DrawLine W H m2 (add8 x0 y2) (add8 y0 x2) (add8 y2 x0) (sub8 y0 x2) color
    let m4 := DrawLine W H m3 (sub8 x0 y2) (add8 y0 x2) (sub8 x0 y2) (sub8 y0 x2) color
    fillCircleLoop W H m4 x0 y0 color f2 dx2 d2 x2 y2
  else mem
termination_by y - x
decreasing_by
  simp_wf
  by_cases hf : f ≥ 0 <;> simp only [hf, if_pos, if_neg, not_true, not_false_iff] <;> omega

/-- `glcd::FillCircle(x0, y0, radius, color)` (glcd.cpp lines 590-657):
seed vertical diameter `DrawLine(x0, y0-radius, x0, y0+radius)` then the
chord-fill loop from `f = 1 - radius`, `ddF_x = 1`, `ddF_y = -2*radius`,
`x = 0`, `y = radius`. -/
def FillCircle (W H : Nat) (mem : Mem) (x0 y0 radius color : Nat) : Mem :=
  let mem1 := DrawLine W H mem x0 (sub8 y0 radius) x0 (add8 y0 radius) color
  fillCircleLoop W H mem1 x0 y0 color (1 - (radius : Int)) 1 (-2 * (radius : Int)) 0 radius

/-- The chord parameters `(x, y)` drawn by successive iterations of the
`FillCircle` loop, in order: each iteration contributes the pair of its
post-update `x` and `y`, standing for the four chords at columns
`x0 ± x` (rows `y0 ± y`) and `x0 ± y` (rows `y0 ± x`). -/
def circleChords (f ddF_x ddF_y : Int) (x y : Nat) : List (Nat × Nat) :=
  if hxy : x < y then
    let t : Nat × Int × Int :=
      if f ≥ 0 then (y - 1, ddF_y + 2, f + (ddF_y + 2)) else (y, ddF_y, f)
    let y2 := t.1
    let d2 := t.2.1
    let f1 := t.2.2
    let x2 := x + 1
    let dx2 := ddF_x + 2
    let f2 := f1 + dx2
    (x2, y2) :: circleChords f2 dx2 d2 x2 y2
  else []
termination_by y - x
decreasing_by
  simp_wf
  by_cases hf : f ≥ 0 <;> simp only [hf, if_pos, if_neg, not_true, not_false_iff] <;> omega

theorem upd_apply (m : Mem) (p c d p2 c2 : Nat) :
    upd m p c d p2 c2 = if p2 = p ∧ c2 = c then d else m p2 c2 := rfl

/-- Pixel-level effect of `SetDot`: the addressed pixel becomes lit for
BLACK and clear otherwise; every other pixel is untouched. -/
theorem SetDot_getDot (mem : Mem) (a b color cc rr : Nat) :
    getDot (SetDot mem a b color) cc rr
      = if cc = a ∧ rr = b then decide (color = BLACK) else getDot mem cc rr := by
  simp only [getDot, SetDot, upd_apply]
  have hb8 : rr % 8 < 8 := Nat.mod_lt _ (by norm_num)
  by_cases hcol : color = BLACK
  · rw [if_pos hcol, upd_apply]
    by_cases hpc : rr / 8 = b / 8 ∧ cc = a
    · rw [if_pos hpc]
      rw [Nat.testBit_or, Nat.one_shiftLeft, Nat.testBit_two_pow]
      by_cases hrr : rr = b
      · rw [if_pos ⟨hpc.2, hrr⟩]
        simp [hcol, hrr]
      · rw [if_neg (fun hq => hrr hq.2)]
        have hne : ¬ (b % 8 = rr % 8) := by omega
        simp [hne, hpc.1, hpc.2]
    · rw [if_neg hpc]
      rw [if_neg (fun hq => hpc ⟨by rw [hq.2], hq.1⟩)]
  · rw [if_neg hcol, upd_apply]
    by_cases hpc : rr / 8 = b / 8 ∧ cc = a
    · rw [if_pos hpc]
      rw [Nat.testBit_and, Nat.testBit_xor, Nat.one_shiftLeft, Nat.testBit_two_pow,
        testBit_255]
      by_cases hrr : rr = b
      · rw [if_pos ⟨hpc.2, hrr⟩]
        simp [hcol, hrr, show b % 8 < 8 by omega]
      · rw [if_neg (fun hq => hrr hq.2)]
        have hne : ¬ (b % 8 = rr % 8) := by omega
        simp [hne, hb8, hpc.1, hpc.2]
    · rw [if_neg hpc]
      rw [if_neg (fun hq => hpc ⟨by rw [hq.2], hq.1⟩)]

/-- An `int8_t`-representable value is unchanged by the wrap. -/
theorem wrap8_small {i : Int} (h1 : -128 ≤ i) (h2 : i ≤ 127) : wrap8 i = i := by
  unfold wrap8
  have h : (i + 128) % 256 = i + 128 := Int.emod_eq_of_lt (by omega) (by omega)
  omega

/-- The Bresenham loop on a vertical segment (`deltay = 0`, `steep`):
the error never underflows, `y` never steps, and the loop lights exactly
the rows `row, row+1, …, row+n-1` of column `a`. -/
theorem drawLineLoop_vert (mem : Mem) (color deltax : Nat) (ystep : Int)
    (row a : Nat) (error : Int) (n : Nat)
    (he1 : 0 ≤ error) (he2 : error ≤ 127) (hrow : row + n ≤ 256) (cc rr : Nat) :
    getDot (drawLineLoop mem true color deltax 0 ystep row a error n) cc rr
      = if cc = a ∧ row ≤ rr ∧ rr < row + n then decide (color = BLACK)
        else getDot mem cc rr := by
  induction n generalizing mem row error with
  | zero =>
    simp only [drawLineLoop]
    rw [if_neg (by omega)]
  | succ n ih =>
    simp only [drawLineLoop, if_true]
    simp only [Nat.cast_zero, sub_zero]
    rw [wrap8_small (by omega) he2]
    rw [if_neg (show ¬ (error < 0) by omega)]
    by_cases hr : row + 1 < 256
    case neg =>
      have hn0 : n = 0 := by omega
      subst hn0
      simp only [drawLineLoop]
      rw [SetDot_getDot]
      by_cases hA : cc = a ∧ rr = row
      · rw [if_pos hA, if_pos ⟨hA.1, by omega, by omega⟩]
      · rw [if_neg hA, if_neg (fun hq => hA ⟨hq.1, by omega⟩)]
    rw [(by omega : (row + 1) % 256 = row + 1)]
    rw [ih _ (row + 1) error he1 he2 (by omega)]
    rw [SetDot_getDot]
    by_cases h1 : cc = a ∧ row + 1 ≤ rr ∧ rr < row + 1 + n
    · rw [if_pos h1, if_pos ⟨h1.1, by omega, by omega⟩]
    · rw [if_neg h1]
      by_cases h2 : cc = a ∧ rr = row
      · rw [if_pos h2, if_pos ⟨h2.1, by omega, by omega⟩]
      · rw [if_neg h2, if_neg (fun hq => ?_)]
        rcases Nat.eq_or_lt_of_le hq.2.1 with he | hl
        · exact h2 ⟨hq.1, he.symm⟩
        · exact h1 ⟨hq.1, hl, by omega⟩

/-- `DrawLine` on a vertical segment (equal in-range `x` endpoints):
exactly the column interval between the two rows is painted. -/
theorem DrawLine_vertical (W H : Nat) (mem : Mem) (color a b1 b2 : Nat)
    (hW : W ≤ 256) (hH : H ≤ 256) (ha : a < W) (hb1 : b1 < H) (hb2 : b2 < H)
    (cc rr : Nat) :
    getDot (DrawLine W H mem a b1 a b2 color) cc rr
      = if cc = a ∧ min b1 b2 ≤ rr ∧ rr ≤ max b1 b2 then decide (color = BLACK)
        else getDot mem cc rr := by
  simp only [DrawLine]
  rw [if_neg (show ¬ a ≥ W by omega), if_neg (show ¬ b1 ≥ H by omega),
    if_neg (show ¬ b2 ≥ H by omega)]
  have haa : absDiff a a = 0 := absDiff_eq_zero_iff.mpr rfl
  by_cases hst : absDiff b1 b2 > absDiff a a
  · have hne : b1 ≠ b2 := fun he => by
      rw [absDiff_eq_zero_iff.mpr he, haa] at hst
      omega
    simp only [hst, decide_True, if_true]
    by_cases hgt : b1 > b2
    · rw [if_pos (show (b1, a).1 > (b2, a).1 from hgt)]
      show getDot (drawLineCore mem true color b2 a b1 a) cc rr = _
      simp only [drawLineCore]
      rw [haa]
      rw [drawLineLoop_vert mem color (b1 - b2) _ b2 a _ (b1 - b2 + 1)
        (by positivity) (by
          have : b1 - b2 ≤ 255 := by omega
          have h2 : (b1 - b2) / 2 ≤ 127 := by omega
          exact_mod_cast h2) (by omega)]
      by_cases hA : cc = a ∧ b2 ≤ rr ∧ rr < b2 + (b1 - b2 + 1)
      · rw [if_pos hA, if_pos ⟨hA.1, by omega, by omega⟩]
      · rw [if_neg hA, if_neg (fun hq => hA ⟨hq.1, by omega, by omega⟩)]
    · rw [if_neg (show ¬ ((b1, a).1 > (b2, a).1) from hgt)]
      show getDot (drawLineCore mem true color b1 a b2 a) cc rr = _
      simp only [drawLineCore]
      rw [haa]
      rw [drawLineLoop_vert mem color (b2 - b1) _ b1 a _ (b2 - b1 + 1)
        (by positivity) (by
          have : b2 - b1 ≤ 255 := by omega
          have h2 : (b2 - b1) / 2 ≤ 127 := by omega
          exact_mod_cast h2) (by omega)]
      by_cases hA : cc = a ∧ b1 ≤ rr ∧ rr < b1 + (b2 - b1 + 1)
      · rw [if_pos hA, if_pos ⟨hA.1, by omega, by omega⟩]
      · rw [if_neg hA, if_neg (fun hq => hA ⟨hq.1, by omega, by omega⟩)]
  · have hbe : b1 = b2 := absDiff_eq_zero_iff.mp (by omega)
    subst hbe
    simp only [hst, decide_False, if_false]
    rw [if_neg (show ¬ ((a, b1).1 > (a, b1).1) by simp)]
    show getDot (drawLineCore mem false color a b1 a b1) cc rr = _
    simp only [drawLineCore]
    rw [Nat.sub_self, absDiff_eq_zero_iff.mpr rfl]
    simp only [drawLineLoop, Bool.false_eq_true, if_false]
    simp only [Nat.zero_div, Nat.cast_zero, sub_zero]
    rw [wrap8_small (by norm_num) (by norm_num)]
    rw [if_neg (show ¬ ((0 : Int) < 0) by norm_num)]
    rw [SetDot_getDot]
    by_cases hA : cc = a ∧ rr = b1
    · rw [if_pos hA, if_pos ⟨hA.1, by omega, by omega⟩]
    · rw [if_neg hA, if_neg (fun hq => hA ⟨hq.1, by omega⟩)]

/-- Unfolding `circleChords` one iteration when the decision `f ≥ 0`
decrements `y`. -/
theorem circleChords_step_dec (f dfx dfy : Int) (x y : Nat)
    (hxy : x < y) (hf : f ≥ 0) :
    circleChords f dfx dfy x y
      = (x + 1, y - 1)
        :: circleChords (f + (dfy + 2) + (dfx + 2)) (dfx + 2) (dfy + 2)
             (x + 1) (y - 1) := by
  rw [circleChords, dif_pos hxy]
  simp [hf]

/-- Unfolding `circleChords` one iteration when the decision `f < 0`
keeps `y`. -/
theorem circleChords_step_keep (f dfx dfy : Int) (x y : Nat)
    (hxy : x < y) (hf : ¬ f ≥ 0) :
    circleChords f dfx dfy x y
      = (x + 1, y) :: circleChords (f + (dfx + 2)) (dfx + 2) dfy (x + 1) y := by
  rw [circleChords, dif_pos hxy]
  simp [hf]

/-- `circleChords` at an exhausted state. -/
theorem circleChords_stop (f dfx dfy : Int) (x y : Nat) (hxy : ¬ x < y) :
    circleChords f dfx dfy x y = [] := by
  rw [circleChords, dif_neg hxy]

/-- Elementary bounds along the chord list: every chord parameter pair
`(a, b)` has `x < a`, `a ≤ y`, `b ≤ y`, and the cumulative Lipschitz
bound `y ≤ b + (a - x)` (the height drops by at most one per column). -/
theorem circleChords_bounds_aux :
    ∀ (fuel : Nat) (f dfx dfy : Int) (x y : Nat), y - x ≤ fuel →
      ∀ p ∈ circleChords f dfx dfy x y,
        x < p.1 ∧ p.1 ≤ y ∧ p.2 ≤ y ∧ y ≤ p.2 + (p.1 - x) := by
  intro fuel
  induction fuel with
  | zero =>
    intro f dfx dfy x y hfu p hp
    rw [circleChords_stop _ _ _ _ _ (by omega)] at hp
    exact absurd hp (List.not_mem_nil p)
  | succ fuel ih =>
    intro f dfx dfy x y hfu p hp
    by_cases hxy : x < y
    · by_cases hf : f ≥ 0
      · rw [circleChords_step_dec _ _ _ _ _ hxy hf] at hp
        rcases List.mem_cons.mp hp with h1 | h2
        · rw [h1]
          refine ⟨by omega, by omega, by omega, by omega⟩
        · have := ih _ _ _ (x + 1) (y - 1) (by omega) p h2
          omega
      · rw [circleChords_step_keep _ _ _ _ _ hxy hf] at hp
        rcases List.mem_cons.mp hp with h1 | h2
        · rw [h1]
          refine ⟨by omega, by omega, by omega, by omega⟩
        · have := ih _ _ _ (x + 1) y (by omega) p h2
          omega
    · rw [circleChords_stop _ _ _ _ _ hxy] at hp
      exact absurd hp (List.not_mem_nil p)

theorem circleChords_bounds (f dfx dfy : Int) (x y : Nat) :
    ∀ p ∈ circleChords f dfx dfy x y,
      x < p.1 ∧ p.1 ≤ y ∧ p.2 ≤ y ∧ y ≤ p.2 + (p.1 - x) :=
  circleChords_bounds_aux (y - x) f dfx dfy x y le_rfl

/-- Monotonicity along the chord list: a chord at a wider column is no
taller. -/
theorem circleChords_mono_aux :
    ∀ (fuel : Nat) (f dfx dfy : Int) (x y : Nat), y - x ≤ fuel →
      ∀ p ∈ circleChords f dfx dfy x y, ∀ q ∈ circleChords f dfx dfy x y,
        p.1 ≤ q.1 → q.2 ≤ p.2 := by
  intro fuel
  induction fuel with
  | zero =>
    intro f dfx dfy x y hfu p hp
    rw [circleChords_stop _ _ _ _ _ (by omega)] at hp
    exact absurd hp (List.not_mem_nil p)
  | succ fuel ih =>
    intro f dfx dfy x y hfu p hp q hq hle
    by_cases hxy : x < y
    · by_cases hf : f ≥ 0
      · rw [circleChords_step_dec _ _ _ _ _ hxy hf] at hp hq
        rcases List.mem_cons.mp hp with h1 | h2 <;>
          rcases List.mem_cons.mp hq with g1 | g2
        · rw [h1, g1]
        · rw [h1] at hle ⊢
          have := circleChords_bounds _ _ _ _ _ q g2
          omega
        · rw [g1] at hle
          have := circleChords_bounds _ _ _ _ _ p h2
          omega
        · exact ih _ _ _ (x + 1) (y - 1) (by omega) p h2 q g2 hle
      · rw [circleChords_step_keep _ _ _ _ _ hxy hf] at hp hq
        rcases List.mem_cons.mp hp with h1 | h2 <;>
          rcases List.mem_cons.mp hq with g1 | g2
        · rw [h1, g1]
        · rw [h1] at hle ⊢
          have := circleChords_bounds _ _ _ _ _ q g2
          omega
        · rw [g1] at hle
          have := circleChords_bounds _ _ _ _ _ p h2
          omega
        · exact ih _ _ _ (x + 1) y (by omega) p h2 q g2 hle
    · rw [circleChords_stop _ _ _ _ _ hxy] at hp
      exact absurd hp (List.not_mem_nil p)

theorem circleChords_mono (f dfx dfy : Int) (x y : Nat) :
    ∀ p ∈ circleChords f dfx dfy x y, ∀ q ∈ circleChords f dfx dfy x y,
      p.1 ≤ q.1 → q.2 ≤ p.2 :=
  circleChords_mono_aux (y - x) f dfx dfy x y le_rfl

/-- The loop guard seen along the list: any chord that is followed by a
wider one was drawn from a state that re-entered the loop, so its column
is strictly below its height. -/
theorem circleChords_guard_aux :
    ∀ (fuel : Nat) (f dfx dfy : Int) (x y : Nat), y - x ≤ fuel →
      ∀ p ∈ circleChords f dfx dfy x y, ∀ q ∈ circleChords f dfx dfy x y,
        p.1 < q.1 → p.1 < p.2 := by
  intro fuel
  induction fuel with
  | zero =>
    intro f dfx dfy x y hfu p hp
    rw [circleChords_stop _ _ _ _ _ (by omega)] at hp
    exact absurd hp (List.not_mem_nil p)
  | succ fuel ih =>
    intro f dfx dfy x y hfu p hp q hq hlt
    by_cases hxy : x < y
    · by_cases hf : f ≥ 0
      · rw [circleChords_step_dec _ _ _ _ _ hxy hf] at hp hq
        rcases List.mem_cons.mp hp with h1 | h2
        · rcases List.mem_cons.mp hq with g1 | g2
          · rw [h1, g1] at hlt
            omega
          · have := circleChords_bounds _ _ _ _ _ q g2
            rw [h1] at hlt ⊢
            omega
        · rcases List.mem_cons.mp hq with g1 | g2
          · have := circleChords_bounds _ _ _ _ _ p h2
            rw [g1] at hlt
            omega
          · exact ih _ _ _ (x + 1) (y - 1) (by omega) p h2 q g2 hlt
      · rw [circleChords_step_keep _ _ _ _ _ hxy hf] at hp hq
        rcases List.mem_cons.mp hp with h1 | h2
        · rcases List.mem_cons.mp hq with g1 | g2
          · rw [h1, g1] at hlt
            omega
          · have := circleChords_bounds _ _ _ _ _ q g2
            rw [h1] at hlt ⊢
            omega
        · rcases List.mem_cons.mp hq with g1 | g2
          · have := circleChords_bounds _ _ _ _ _ p h2
            rw [g1] at hlt
            omega
          · exact ih _ _ _ (x + 1) y (by omega) p h2 q g2 hlt
    · rw [circleChords_stop _ _ _ _ _ hxy] at hp
      exact absurd hp (List.not_mem_nil p)

theorem circleChords_guard (f dfx dfy : Int) (x y : Nat) :
    ∀ p ∈ circleChords f dfx dfy x y, ∀ q ∈ circleChords f dfx dfy x y,
      p.1 < q.1 → p.1 < p.2 :=
  circleChords_guard_aux (y - x) f dfx dfy x y le_rfl

/-- The loop exit seen along the list: when the loop runs at least once
there is a widest chord, and at that chord the guard has just failed,
so its height is at most its column. -/
theorem circleChords_last_aux :
    ∀ (fuel : Nat) (f dfx dfy : Int) (x y : Nat), y - x ≤ fuel → x < y →
      ∃ q ∈ circleChords f dfx dfy x y,
        q.2 ≤ q.1 ∧ ∀ p ∈ circleChords f dfx dfy x y, p.1 ≤ q.1 := by
  intro fuel
  induction fuel with
  | zero =>
    intro f dfx dfy x y hfu hxy
    omega
  | succ fuel ih =>
    intro f dfx dfy x y hfu hxy
    by_cases hf : f ≥ 0
    · rw [circleChords_step_dec _ _ _ _ _ hxy hf]
      by_cases hxy2 : x + 1 < y - 1
      · obtain ⟨q, hqmem, hq1, hq2⟩ := ih _ _ _ (x + 1) (y - 1) (by omega) hxy2
        refine ⟨q, List.mem_cons_of_mem _ hqmem, hq1, ?_⟩
        intro p hp
        rcases List.mem_cons.mp hp with h1 | h2
        · have := circleChords_bounds _ _ _ _ _ q hqmem
          rw [h1]
          omega
        · exact hq2 p h2
      · refine ⟨(x + 1, y - 1), List.mem_cons_self _ _, by omega, ?_⟩
        intro p hp
        rcases List.mem_cons.mp hp with h1 | h2
        · rw [h1]
        · rw [circleChords_stop _ _ _ _ _ hxy2] at h2
          exact absurd h2 (List.not_mem_nil p)
    · rw [circleChords_step_keep _ _ _ _ _ hxy hf]
      by_cases hxy2 : x + 1 < y
      · obtain ⟨q, hqmem, hq1, hq2⟩ := ih _ _ _ (x + 1) y (by omega) hxy2
        refine ⟨q, List.mem_cons_of_mem _ hqmem, hq1, ?_⟩
        intro p hp
        rcases List.mem_cons.mp hp with h1 | h2
        · have := circleChords_bounds _ _ _ _ _ q hqmem
          rw [h1]
          omega
        · exact hq2 p h2
      · refine ⟨(x + 1, y), List.mem_cons_self _ _, by omega, ?_⟩
        intro p hp
        rcases List.mem_cons.mp hp with h1 | h2
        · rw [h1]
        · rw [circleChords_stop _ _ _ _ _ hxy2] at h2
          exact absurd h2 (List.not_mem_nil p)

theorem circleChords_last (f dfx dfy : Int) (x y : Nat) (hxy : x < y) :
    ∃ q ∈ circleChords f dfx dfy x y,
      q.2 ≤ q.1 ∧ ∀ p ∈ circleChords f dfx dfy x y, p.1 ≤ q.1 :=
  circleChords_last_aux (y - x) f dfx dfy x y le_rfl hxy

/-- Column completeness: every column index between `x+1` and the column
of any chord is itself the column of a chord (columns are consecutive). -/
theorem circleChords_colfull_aux :
    ∀ (fuel : Nat) (f dfx dfy : Int) (x y : Nat), y - x ≤ fuel →
      ∀ p ∈ circleChords f dfx dfy x y, ∀ d, x < d → d ≤ p.1 →
        ∃ q ∈ circleChords f dfx dfy x y, q.1 = d := by
  intro fuel
  induction fuel with
  | zero =>
    intro f dfx dfy x y hfu p hp
    rw [circleChords_stop _ _ _ _ _ (by omega)] at hp
    exact absurd hp (List.not_mem_nil p)
  | succ fuel ih =>
    intro f dfx dfy x y hfu p hp d hd1 hd2
    by_cases hxy : x < y
    · by_cases hf : f ≥ 0
      · rw [circleChords_step_dec _ _ _ _ _ hxy hf] at hp ⊢
        by_cases hdx : d = x + 1
        · exact ⟨(x + 1, y - 1), List.mem_cons_self _ _, hdx.symm⟩
        · rcases List.mem_cons.mp hp with h1 | h2
          · rw [h1] at hd2
            omega
          · obtain ⟨q, hqmem, hq⟩ :=
              ih _ _ _ (x + 1) (y - 1) (by omega) p h2 d (by omega) hd2
            exact ⟨q, List.mem_cons_of_mem _ hqmem, hq⟩
      · rw [circleChords_step_keep _ _ _ _ _ hxy hf] at hp ⊢
        by_cases hdx : d = x + 1
        · exact ⟨(x + 1, y), List.mem_cons_self _ _, hdx.symm⟩
        · rcases List.mem_cons.mp hp with h1 | h2
          · rw [h1] at hd2
            omega
          · obtain ⟨q, hqmem, hq⟩ :=
              ih _ _ _ (x + 1) y (by omega) p h2 d (by omega) hd2
            exact ⟨q, List.mem_cons_of_mem _ hqmem, hq⟩
    · rw [circleChords_stop _ _ _ _ _ hxy] at hp
      exact absurd hp (List.not_mem_nil p)

theorem circleChords_colfull (f dfx dfy : Int) (x y : Nat) :
    ∀ p ∈ circleChords f dfx dfy x y, ∀ d, x < d → d ≤ p.1 →
      ∃ q ∈ circleChords f dfx dfy x y, q.1 = d :=
  circleChords_colfull_aux (y - x) f dfx dfy x y le_rfl

/-- Column-or-height coverage: every `d` with `x < d` up to the first
drawn height is hit, either as a column or as a height. -/
theorem circleChords_colcov_aux :
    ∀ (fuel : Nat) (f dfx dfy : Int) (x y : Nat), y - x ≤ fuel →
      ∀ d, x < d → d ≤ (if f ≥ 0 then y - 1 else y) →
        ∃ q ∈ circleChords f dfx dfy x y, q.1 = d ∨ q.2 = d := by
  intro fuel
  induction fuel with
  | zero =>
    intro f dfx dfy x y hfu d hd1 hd2
    split_ifs at hd2 <;> omega
  | succ fuel ih =>
    intro f dfx dfy x y hfu d hd1 hd2
    by_cases hf : f ≥ 0
    · rw [if_pos hf] at hd2
      have hxy : x < y := by omega
      rw [circleChords_step_dec _ _ _ _ _ hxy hf]
      by_cases hdx : d = x + 1
      · exact ⟨(x + 1, y - 1), List.mem_cons_self _ _, Or.inl hdx.symm⟩
      · by_cases hdy : d = y - 1
        · exact ⟨(x + 1, y - 1), List.mem_cons_self _ _, Or.inr hdy.symm⟩
        · have hbnd : d ≤ (if f + (dfy + 2) + (dfx + 2) ≥ 0
              then y - 1 - 1 else y - 1) := by
            split_ifs <;> omega
          obtain ⟨q, hqmem, hq⟩ := ih (f + (dfy + 2) + (dfx + 2)) (dfx + 2)
            (dfy + 2) (x + 1) (y - 1) (by omega) d (by omega) hbnd
          exact ⟨q, List.mem_cons_of_mem _ hqmem, hq⟩
    · rw [if_neg hf] at hd2
      have hxy : x < y := by omega
      rw [circleChords_step_keep _ _ _ _ _ hxy hf]
      by_cases hdx : d = x + 1
      · exact ⟨(x + 1, y), List.mem_cons_self _ _, Or.inl hdx.symm⟩
      · by_cases hdy : d = y
        · exact ⟨(x + 1, y), List.mem_cons_self _ _, Or.inr hdy.symm⟩
        · have hbnd : d ≤ (if f + (dfx + 2) ≥ 0 then y - 1 else y) := by
            split_ifs <;> omega
          obtain ⟨q, hqmem, hq⟩ := ih (f + (dfx + 2)) (dfx + 2) dfy
            (x + 1) y (by omega) d (by omega) hbnd
          exact ⟨q, List.mem_cons_of_mem _ hqmem, hq⟩

theorem circleChords_colcov (f dfx dfy : Int) (x y : Nat) :
    ∀ d, x < d → d ≤ (if f ≥ 0 then y - 1 else y) →
      ∃ q ∈ circleChords f dfx dfy x y, q.1 = d ∨ q.2 = d :=
  circleChords_colcov_aux (y - x) f dfx dfy x y le_rfl

/-- Height-value intermediate coverage: any `d` below some drawn height
is either attained exactly as a height, or lies strictly below every
drawn height. -/
theorem circleChords_valcov_aux :
    ∀ (fuel : Nat) (f dfx dfy : Int) (x y : Nat), y - x ≤ fuel →
      ∀ p ∈ circleChords f dfx dfy x y, ∀ d, d ≤ p.2 →
        (∃ s ∈ circleChords f dfx dfy x y, s.2 = d)
        ∨ (∀ q ∈ circleChords f dfx dfy x y, d < q.2) := by
  intro fuel
  induction fuel with
  | zero =>
    intro f dfx dfy x y hfu p hp
    rw [circleChords_stop _ _ _ _ _ (by omega)] at hp
    exact absurd hp (List.not_mem_nil p)
  | succ fuel ih =>
    intro f dfx dfy x y hfu p hp d hd
    by_cases hxy : x < y
    case neg =>
      rw [circleChords_stop _ _ _ _ _ hxy] at hp
      exact absurd hp (List.not_mem_nil p)
    have hstep : ∃ y2, (y2 = y - 1 ∨ y2 = y) ∧ y ≤ y2 + 1 ∧
        ∃ f2 dfx2 dfy2, circleChords f dfx dfy x y
          = (x + 1, y2) :: circleChords f2 dfx2 dfy2 (x + 1) y2 := by
      by_cases hf : f ≥ 0
      · exact ⟨y - 1, Or.inl rfl, by omega, _, _, _,
          circleChords_step_dec _ _ _ _ _ hxy hf⟩
      · exact ⟨y, Or.inr rfl, by omega, _, _, _,
          circleChords_step_keep _ _ _ _ _ hxy hf⟩
    obtain ⟨y2, hy2, hy2b, f2, dfx2, dfy2, hL⟩ := hstep
    rw [hL] at hp ⊢
    by_cases hdy2 : d = y2
    · exact Or.inl ⟨(x + 1, y2), List.mem_cons_self _ _, hdy2.symm⟩
    rcases List.mem_cons.mp hp with h1 | h2
    · -- p is the head chord, so d < y2
      rw [h1] at hd
      have hdlt : d < y2 := by
        rcases Nat.lt_or_ge d y2 with h | h
        · exact h
        · exact absurd (by omega : d = y2) hdy2
      by_cases htail : x + 1 < y2
      · -- the tail is nonempty; its head has height ≥ y2 - 1 ≥ d
        have hne : ∃ h2p, h2p ∈ circleChords f2 dfx2 dfy2 (x + 1) y2
            ∧ y2 ≤ h2p.2 + 1 := by
          by_cases hf2 : f2 ≥ 0
          · rw [circleChords_step_dec _ _ _ _ _ htail hf2]
            exact ⟨(x + 2, y2 - 1), List.mem_cons_self _ _, by omega⟩
          · rw [circleChords_step_keep _ _ _ _ _ htail hf2]
            exact ⟨(x + 2, y2), List.mem_cons_self _ _, by omega⟩
        obtain ⟨h2p, h2mem, h2ht⟩ := hne
        rcases ih _ _ _ (x + 1) y2 (by omega) h2p h2mem d (by omega) with hl | hr
        · obtain ⟨s, hsmem, hs⟩ := hl
          exact Or.inl ⟨s, List.mem_cons_of_mem _ hsmem, hs⟩
        · refine Or.inr ?_
          intro q hq
          rcases List.mem_cons.mp hq with g1 | g2
          · rw [g1]
            exact hdlt
          · exact hr q g2
      · rw [circleChords_stop _ _ _ _ _ htail]
        refine Or.inr ?_
        intro q hq
        rcases List.mem_cons.mp hq with g1 | g2
        · rw [g1]
          exact hdlt
        · exact absurd g2 (List.not_mem_nil q)
    · -- p is in the tail
      rcases ih _ _ _ (x + 1) y2 (by omega) p h2 d hd with hl | hr
      · obtain ⟨s, hsmem, hs⟩ := hl
        exact Or.inl ⟨s, List.mem_cons_of_mem _ hsmem, hs⟩
      · refine Or.inr ?_
        intro q hq
        rcases List.mem_cons.mp hq with g1 | g2
        · rw [g1]
          have := circleChords_bounds _ _ _ _ _ p h2
          have hdle : d ≤ y2 := by omega
          rcases Nat.lt_or_ge d y2 with h | h
          · exact h
          · exact absurd (by omega : d = y2) hdy2
        · exact hr q g2

theorem circleChords_valcov (f dfx dfy : Int) (x y : Nat) :
    ∀ p ∈ circleChords f dfx dfy x y, ∀ d, d ≤ p.2 →
      (∃ s ∈ circleChords f dfx dfy x y, s.2 = d)
      ∨ (∀ q ∈ circleChords f dfx dfy x y, d < q.2) :=
  circleChords_valcov_aux (y - x) f dfx dfy x y le_rfl

/-- `uint8_t` addition without wrap. -/
theorem add8_eq {a b : Nat} (h : a + b < 256) : add8 a b = a + b := by
  unfold add8
  omega

/-- `uint8_t` subtraction without wrap. -/
theorem sub8_eq {a b : Nat} (hb : b ≤ a) (ha : a < 256) : sub8 a b = a - b := by
  unfold sub8
  omega

/-- The four vertical chords drawn by one `FillCircle` loop iteration
with post-update offsets `a` (the `x` value) and `b` (the `y` value):
columns `x0 ± a` over rows `y0 ± b` and columns `x0 ± b` over rows
`y0 ± a` (glcd.cpp lines 652-655; line 654 writes its second `x`
argument as `y + x0`). -/
def fourChords (W H : Nat) (mem : Mem) (x0 y0 color a b : Nat) : Mem :=
  DrawLine W H (DrawLine W H (DrawLine W H (DrawLine W H mem
    (add8 x0 a) (add8 y0 b) (add8 x0 a) (sub8 y0 b) color)
    (sub8 x0 a) (add8 y0 b) (sub8 x0 a) (sub8 y0 b) color)
    (add8 x0 b) (add8 y0 a) (add8 b x0) (sub8 y0 a) color)
    (sub8 x0 b) (add8 y0 a) (sub8 x0 b) (sub8 y0 a) color

/-- Unfolding `fillCircleLoop` one iteration when the decision
decrements `y`. -/
theorem fillCircleLoop_step_dec (W H : Nat) (mem : Mem) (x0 y0 color : Nat)
    (f dfx dfy : Int) (x y : Nat) (hxy : x < y) (hf : f ≥ 0) :
    fillCircleLoop W H mem x0 y0 color f dfx dfy x y
      = fillCircleLoop W H (fourChords W H mem x0 y0 color (x + 1) (y - 1))
          x0 y0 color (f + (dfy + 2) + (dfx + 2)) (dfx + 2) (dfy + 2)
          (x + 1) (y - 1) := by
  rw [fillCircleLoop, dif_pos hxy]
  simp [hf, fourChords]

/-- Unfolding `fillCircleLoop` one iteration when the decision keeps
`y`. -/
theorem fillCircleLoop_step_keep (W H : Nat) (mem : Mem) (x0 y0 color : Nat)
    (f dfx dfy : Int) (x y : Nat) (hxy : x < y) (hf : ¬ f ≥ 0) :
    fillCircleLoop W H mem x0 y0 color f dfx dfy x y
      = fillCircleLoop W H (fourChords W H mem x0 y0 color (x + 1) y)
          x0 y0 color (f + (dfx + 2)) (dfx + 2) dfy (x + 1) y := by
  rw [fillCircleLoop, dif_pos hxy]
  simp [hf, fourChords]

/-- `fillCircleLoop` at an exhausted state. -/
theorem fillCircleLoop_stop (W H : Nat) (mem : Mem) (x0 y0 color : Nat)
    (f dfx dfy : Int) (x y : Nat) (hxy : ¬ x < y) :
    fillCircleLoop W H mem x0 y0 color f dfx dfy x y = mem := by
  rw [fillCircleLoop, dif_neg hxy]

/-- The pixel region covered by the four chords of one iteration with
parameter pair `p = (a, b)`: columns `x0 ± a`, rows `[y0-b, y0+b]`, and
columns `x0 ± b`, rows `[y0-a, y0+a]`. -/
abbrev chordCovers (x0 y0 : Nat) (p : Nat × Nat) (cc rr : Nat) : Prop :=
  ((cc = x0 + p.1 ∨ cc = x0 - p.1) ∧ y0 - p.2 ≤ rr ∧ rr ≤ y0 + p.2)
  ∨ ((cc = x0 + p.2 ∨ cc = x0 - p.2) ∧ y0 - p.1 ≤ rr ∧ rr ≤ y0 + p.1)

instance decChordCoversEx (x0 y0 cc rr : Nat) (L : List (Nat × Nat)) :
    Decidable (∃ p ∈ L, chordCovers x0 y0 p cc rr) :=
  List.decidableBEx _ L

theorem ite_or4 {C1 C2 C3 C4 : Prop} [Decidable C1] [Decidable C2]
    [Decidable C3] [Decidable C4] {D base : Bool} (h : C1 ∨ C2 ∨ C3 ∨ C4) :
    (if C1 then D else if C2 then D else if C3 then D
      else if C4 then D else base) = D := by
  by_cases c1 : C1
  · rw [if_pos c1]
  · rw [if_neg c1]
    by_cases c2 : C2
    · rw [if_pos c2]
    · rw [if_neg c2]
      by_cases c3 : C3
      · rw [if_pos c3]
      · rw [if_neg c3]
        rw [if_pos (by tauto)]

theorem ite_or4_neg {C1 C2 C3 C4 : Prop} [Decidable C1] [Decidable C2]
    [Decidable C3] [Decidable C4] {D base : Bool}
    (h1 : ¬ C1) (h2 : ¬ C2) (h3 : ¬ C3) (h4 : ¬ C4) :
    (if C1 then D else if C2 then D else if C3 then D
      else if C4 then D else base) = base := by
  rw [if_neg h1, if_neg h2, if_neg h3, if_neg h4]

/-- Pixel effect of the four chords of one iteration, for in-range
center and offsets. -/
theorem fourChords_getDot (W H x0 y0 color r : Nat) (mem : Mem) (a b : Nat)
    (hW : W ≤ 256) (hH : H ≤ 256) (hx1 : r ≤ x0) (hx2 : x0 + r < W)
    (hy1 : r ≤ y0) (hy2 : y0 + r < H) (ha : a ≤ r) (hb : b ≤ r) (cc rr : Nat) :
    getDot (fourChords W H mem x0 y0 color a b) cc rr
      = if chordCovers x0 y0 (a, b) cc rr then decide (color = BLACK)
        else getDot mem cc rr := by
  unfold fourChords
  rw [add8_eq (show x0 + a < 256 by omega), add8_eq (show y0 + b < 256 by omega),
    sub8_eq (show b ≤ y0 by omega) (show y0 < 256 by omega),
    sub8_eq (show a ≤ x0 by omega) (show x0 < 256 by omega),
    add8_eq (show x0 + b < 256 by omega), add8_eq (show y0 + a < 256 by omega),
    add8_eq (show b + x0 < 256 by omega),
    sub8_eq (show a ≤ y0 by omega) (show y0 < 256 by omega),
    sub8_eq (show b ≤ x0 by omega) (show x0 < 256 by omega),
    Nat.add_comm b x0]
  rw [DrawLine_vertical W H _ color (x0 - b) (y0 + a) (y0 - a) hW hH
      (by omega) (by omega) (by omega) cc rr,
    DrawLine_vertical W H _ color (x0 + b) (y0 + a) (y0 - a) hW hH
      (by omega) (by omega) (by omega) cc rr,
    DrawLine_vertical W H _ color (x0 - a) (y0 + b) (y0 - b) hW hH
      (by omega) (by omega) (by omega) cc rr,
    DrawLine_vertical W H _ color (x0 + a) (y0 + b) (y0 - b) hW hH
      (by omega) (by omega) (by omega) cc rr]
  rw [(show min (y0 + a) (y0 - a) = y0 - a by omega),
    (show max (y0 + a) (y0 - a) = y0 + a by omega),
    (show min (y0 + b) (y0 - b) = y0 - b by omega),
    (show max (y0 + b) (y0 - b) = y0 + b by omega)]
  by_cases hcov : chordCovers x0 y0 (a, b) cc rr
  · rw [if_pos hcov]
    have hcov2 : ((cc = x0 + a ∨ cc = x0 - a) ∧ y0 - b ≤ rr ∧ rr ≤ y0 + b)
        ∨ ((cc = x0 + b ∨ cc = x0 - b) ∧ y0 - a ≤ rr ∧ rr ≤ y0 + a) := hcov
    exact ite_or4 (by tauto)
  · rw [if_neg hcov]
    exact ite_or4_neg
      (fun hk => hcov (Or.inr ⟨Or.inr hk.1, hk.2⟩))
      (fun hk => hcov (Or.inr ⟨Or.inl hk.1, hk.2⟩))
      (fun hk => hcov (Or.inl ⟨Or.inr hk.1, hk.2⟩))
      (fun hk => hcov (Or.inl ⟨Or.inl hk.1, hk.2⟩))

/-- Painted-set characterisation of the `FillCircle` loop: a pixel is
painted (to the BLACK/WHITE decision of `color`) exactly when some drawn
chord pair covers it, and is untouched otherwise. -/
theorem fillCircleLoop_paint_aux (W H x0 y0 color r : Nat)
    (hW : W ≤ 256) (hH : H ≤ 256) (hx1 : r ≤ x0) (hx2 : x0 + r < W)
    (hy1 : r ≤ y0) (hy2 : y0 + r < H) :
    ∀ (fuel : Nat) (f dfx dfy : Int) (x y : Nat) (mem : Mem) (cc rr : Nat),
      y - x ≤ fuel → y ≤ r →
      getDot (fillCircleLoop W H mem x0 y0 color f dfx dfy x y) cc rr
        = if ∃ p ∈ circleChords f dfx dfy x y, chordCovers x0 y0 p cc rr
          then decide (color = BLACK) else getDot mem cc rr := by
  intro fuel
  induction fuel with
  | zero =>
    intro f dfx dfy x y mem cc rr hfu hyr
    rw [fillCircleLoop_stop _ _ _ _ _ _ _ _ _ _ _ (by omega),
      circleChords_stop _ _ _ _ _ (by omega)]
    simp
  | succ fuel ih =>
    intro f dfx dfy x y mem cc rr hfu hyr
    by_cases hxy : x < y
    case neg =>
      rw [fillCircleLoop_stop _ _ _ _ _ _ _ _ _ _ _ hxy,
        circleChords_stop _ _ _ _ _ hxy]
      simp
    by_cases hf : f ≥ 0
    · rw [fillCircleLoop_step_dec W H mem x0 y0 color f dfx dfy x y hxy hf,
        circleChords_step_dec f dfx dfy x y hxy hf]
      rw [ih (f + (dfy + 2) + (dfx + 2)) (dfx + 2) (dfy + 2) (x + 1) (y - 1)
        (fourChords W H mem x0 y0 color (x + 1) (y - 1)) cc rr
        (by omega) (by omega)]
      rw [fourChords_getDot W H x0 y0 color r mem (x + 1) (y - 1) hW hH
        hx1 hx2 hy1 hy2 (by omega) (by omega) cc rr]
      by_cases hT : ∃ p ∈ circleChords (f + (dfy + 2) + (dfx + 2)) (dfx + 2)
          (dfy + 2) (x + 1) (y - 1), chordCovers x0 y0 p cc rr
      · obtain ⟨p, hpmem, hpc⟩ := hT
        rw [if_pos ⟨p, hpmem, hpc⟩,
          if_pos ⟨p, List.mem_cons_of_mem _ hpmem, hpc⟩]
      · rw [if_neg hT]
        by_cases hh : chordCovers x0 y0 (x + 1, y - 1) cc rr
        · rw [if_pos hh, if_pos ⟨(x + 1, y - 1), List.mem_cons_self _ _, hh⟩]
        · rw [if_neg hh, if_neg (fun hq => ?_)]
          obtain ⟨p, hpmem, hpc⟩ := hq
          rcases List.mem_cons.mp hpmem with h1 | h2
          · exact hh (h1 ▸ hpc)
          · exact hT ⟨p, h2, hpc⟩
    · rw [fillCircleLoop_step_keep W H mem x0 y0 color f dfx dfy x y hxy hf,
        circleChords_step_keep f dfx dfy x y hxy hf]
      rw [ih (f + (dfx + 2)) (dfx + 2) dfy (x + 1) y
        (fourChords W H mem x0 y0 color (x + 1) y) cc rr
        (by omega) (by omega)]
      rw [fourChords_getDot W H x0 y0 color r mem (x + 1) y hW hH
        hx1 hx2 hy1 hy2 (by omega) (by omega) cc rr]
      by_cases hT : ∃ p ∈ circleChords (f + (dfx + 2)) (dfx + 2)
          dfy (x + 1) y, chordCovers x0 y0 p cc rr
      · obtain ⟨p, hpmem, hpc⟩ := hT
        rw [if_pos ⟨p, hpmem, hpc⟩,
          if_pos ⟨p, List.mem_cons_of_mem _ hpmem, hpc⟩]
      · rw [if_neg hT]
        by_cases hh : chordCovers x0 y0 (x + 1, y) cc rr
        · rw [if_pos hh, if_pos ⟨(x + 1, y), List.mem_cons_self _ _, hh⟩]
        · rw [if_neg hh, if_neg (fun hq => ?_)]
          obtain ⟨p, hpmem, hpc⟩ := hq
          rcases List.mem_cons.mp hpmem with h1 | h2
          · exact hh (h1 ▸ hpc)
          · exact hT ⟨p, h2, hpc⟩

theorem fillCircleLoop_paint (W H x0 y0 color r : Nat)
    (hW : W ≤ 256) (hH : H ≤ 256) (hx1 : r ≤ x0) (hx2 : x0 + r < W)
    (hy1 : r ≤ y0) (hy2 : y0 + r < H)
    (f dfx dfy : Int) (x y : Nat) (mem : Mem) (cc rr : Nat) (hyr : y ≤ r) :
    getDot (fillCircleLoop W H mem x0 y0 color f dfx dfy x y) cc rr
      = if ∃ p ∈ circleChords f dfx dfy x y, chordCovers x0 y0 p cc rr
        then decide (color = BLACK) else getDot mem cc rr :=
  fillCircleLoop_paint_aux W H x0 y0 color r hW hH hx1 hx2 hy1 hy2
    (y - x) f dfx dfy x y mem cc rr le_rfl hyr

/-- Membership in the magnitude-level painted set of `FillCircle` with
radius `r`: offset `(dx, dy)` from the center is painted either by the
seed diameter column (`dx = 0`) or by an iteration chord pair. -/
def circleMember (r dx dy : Nat) : Prop :=
  (dx = 0 ∧ dy ≤ r)
  ∨ ∃ p ∈ circleChords (1 - (r : Int)) 1 (-2 * (r : Int)) 0 r,
      (dx = p.1 ∧ dy ≤ p.2) ∨ (dx = p.2 ∧ dy ≤ p.1)

theorem circleMember_def (r dx dy : Nat) :
    circleMember r dx dy
      ↔ (dx = 0 ∧ dy ≤ r)
        ∨ ∃ p ∈ circleChords (1 - (r : Int)) 1 (-2 * (r : Int)) 0 r,
            (dx = p.1 ∧ dy ≤ p.2) ∨ (dx = p.2 ∧ dy ≤ p.1) := Iff.rfl

instance decCircleMember (r dx dy : Nat) : Decidable (circleMember r dx dy) :=
  decidable_of_iff _ (circleMember_def r dx dy).symm

/-- The pixel condition characterising the `FillCircle` painted set:
on the seed diameter column, or covered by a loop chord pair. -/
def seedOrChord (x0 y0 r cc rr : Nat) : Prop :=
  (cc = x0 ∧ y0 - r ≤ rr ∧ rr ≤ y0 + r)
  ∨ ∃ p ∈ circleChords (1 - (r : Int)) 1 (-2 * (r : Int)) 0 r,
      chordCovers x0 y0 p cc rr

theorem seedOrChord_def (x0 y0 r cc rr : Nat) :
    seedOrChord x0 y0 r cc rr
      ↔ (cc = x0 ∧ y0 - r ≤ rr ∧ rr ≤ y0 + r)
        ∨ ∃ p ∈ circleChords (1 - (r : Int)) 1 (-2 * (r : Int)) 0 r,
            chordCovers x0 y0 p cc rr := Iff.rfl

instance decSeedOrChord (x0 y0 r cc rr : Nat) :
    Decidable (seedOrChord x0 y0 r cc rr) :=
  decidable_of_iff _ (seedOrChord_def x0 y0 r cc rr).symm

/-- Diagonal mirror closure of the painted set, radius at least 2. -/
theorem circleMember_mirror (r : Nat) (hr : 2 ≤ r) (dx dy : Nat)
    (hdx : dx ≤ r) (hdy : dy ≤ r) (hm : circleMember r dx dy) :
    circleMember r dy dx := by
  rw [circleMember_def] at hm ⊢
  by_cases hde : dx = dy
  · subst hde
    exact hm
  rcases hm with ⟨hdx0, hdyr⟩ | ⟨p, hpmem, hpc⟩
  · subst hdx0
    by_cases hdy0 : dy = 0
    · exact Or.inl ⟨hdy0, by omega⟩
    · have hite : (if (1 - (r : Int)) ≥ 0 then r - 1 else r) = r := by
        rw [if_neg (by omega)]
      obtain ⟨q, hqmem, hq⟩ := circleChords_colcov (1 - (r : Int)) 1
        (-2 * (r : Int)) 0 r dy (by omega) (by rw [hite]; omega)
      rcases hq with h1 | h2
      · exact Or.inr ⟨q, hqmem, Or.inl ⟨h1.symm, by omega⟩⟩
      · exact Or.inr ⟨q, hqmem, Or.inr ⟨h2.symm, by omega⟩⟩
  · have hbp := circleChords_bounds _ _ _ _ _ p hpmem
    rcases hpc with ⟨hp1, hp2⟩ | ⟨hp1, hp2⟩
    · by_cases hdy0 : dy = 0
      · subst hdy0
        exact Or.inl ⟨rfl, by omega⟩
      rcases Nat.lt_or_ge dy dx with hlt | hge
      · obtain ⟨s, hsmem, hs1⟩ := circleChords_colfull _ _ _ _ _ p hpmem
          (dx - 1) (by omega) (by omega)
        have hsg : s.1 < s.2 := circleChords_guard _ _ _ _ _ s hsmem p hpmem
          (by omega)
        obtain ⟨q, hqmem, hq1⟩ := circleChords_colfull _ _ _ _ _ p hpmem
          dy (by omega) (by omega)
        have hmono := circleChords_mono _ _ _ _ _ q hqmem s hsmem (by omega)
        exact Or.inr ⟨q, hqmem, Or.inl ⟨hq1.symm, by omega⟩⟩
      · have hgt : dx < dy := by omega
        rcases circleChords_valcov _ _ _ _ _ p hpmem dy hp2 with
          ⟨s, hsmem, hs2⟩ | hall
        · by_cases hds : dx ≤ s.1
          · exact Or.inr ⟨s, hsmem, Or.inr ⟨hs2.symm, hds⟩⟩
          · have hmono := circleChords_mono _ _ _ _ _ s hsmem p hpmem (by omega)
            exact Or.inr ⟨p, hpmem, Or.inr ⟨by omega, by omega⟩⟩
        · obtain ⟨l, hlmem, hl1, hl2⟩ := circleChords_last (1 - (r : Int)) 1
            (-2 * (r : Int)) 0 r (by omega)
          have hdl : dy < l.2 := hall l hlmem
          obtain ⟨q, hqmem, hq1⟩ := circleChords_colfull _ _ _ _ _ l hlmem
            dy (by omega) (by omega)
          have hqq := hall q hqmem
          exact Or.inr ⟨q, hqmem, Or.inl ⟨hq1.symm, by omega⟩⟩
    · by_cases hdy0 : dy = 0
      · subst hdy0
        exact Or.inl ⟨rfl, by omega⟩
      obtain ⟨q, hqmem, hq1⟩ := circleChords_colfull _ _ _ _ _ p hpmem
        dy (by omega) (by omega)
      have hmono := circleChords_mono _ _ _ _ _ q hqmem p hpmem (by omega)
      exact Or.inr ⟨q, hqmem, Or.inl ⟨hq1.symm, by omega⟩⟩

/-- Diagonal mirror closure for the degenerate radii 0 and 1. -/
theorem circleMember_mirror_small (r : Nat) (hr : r ≤ 1) (dx dy : Nat)
    (hdx : dx ≤ r) (hdy : dy ≤ r) (hm : circleMember r dx dy) :
    circleMember r dy dx := by
  rw [circleMember_def] at hm ⊢
  interval_cases r
  · interval_cases dx
    interval_cases dy
    exact hm
  · have hL1 : circleChords (1 - ((1 : Nat) : Int)) 1 (-2 * ((1 : Nat) : Int))
        0 1 = [(1, 0)] := by
      rw [circleChords_step_dec _ _ _ _ _ (by norm_num) (by norm_num)]
      rw [circleChords_stop _ _ _ _ _ (by norm_num)]
    interval_cases dx <;> interval_cases dy
    · exact hm
    · exact Or.inr ⟨(1, 0), by rw [hL1]; exact List.mem_singleton.mpr rfl,
        Or.inl ⟨rfl, by omega⟩⟩
    · exact Or.inl ⟨rfl, by omega⟩
    · exact hm

/-- Diagonal mirror closure of the painted set, all radii. -/
theorem circleMember_mirror_all (r dx dy : Nat)
    (hdx : dx ≤ r) (hdy : dy ≤ r) (hm : circleMember r dx dy) :
    circleMember r dy dx := by
  rcases Nat.lt_or_ge r 2 with h | h
  · exact circleMember_mirror_small r (by omega) dx dy hdx hdy hm
  · exact circleMember_mirror r h dx dy hdx hdy hm

/-- Full pixel characterisation of `FillCircle` for an in-range disc:
a pixel is painted exactly when it is on the seed diameter column or
covered by a loop chord. -/
theorem FillCircle_getDot (W H x0 y0 r color : Nat)
    (hW : W ≤ 256) (hH : H ≤ 256) (hx1 : r ≤ x0) (hx2 : x0 + r < W)
    (hy1 : r ≤ y0) (hy2 : y0 + r < H) (mem : Mem) (cc rr : Nat) :
    getDot (FillCircle W H mem x0 y0 r color) cc rr
      = if seedOrChord x0 y0 r cc rr
        then decide (color = BLACK) else getDot mem cc rr := by
  simp only [FillCircle]
  rw [fillCircleLoop_paint W H x0 y0 color r hW hH hx1 hx2 hy1 hy2
    (1 - (r : Int)) 1 (-2 * (r : Int)) 0 r _ cc rr le_rfl]
  rw [sub8_eq (show r ≤ y0 by omega) (show y0 < 256 by omega),
    add8_eq (show y0 + r < 256 by omega)]
  rw [DrawLine_vertical W H mem color x0 (y0 - r) (y0 + r) hW hH
    (by omega) (by omega) (by omega) cc rr]
  rw [(show min (y0 - r) (y0 + r) = y0 - r by omega),
    (show max (y0 - r) (y0 + r) = y0 + r by omega)]
  by_cases hE : ∃ p ∈ circleChords (1 - (r : Int)) 1 (-2 * (r : Int)) 0 r,
      chordCovers x0 y0 p cc rr
  · rw [if_pos hE,
      if_pos ((seedOrChord_def x0 y0 r cc rr).mpr (Or.inr hE))]
  · rw [if_neg hE]
    by_cases hS : cc = x0 ∧ y0 - r ≤ rr ∧ rr ≤ y0 + r
    · rw [if_pos hS,
        if_pos ((seedOrChord_def x0 y0 r cc rr).mpr (Or.inl hS))]
    · rw [if_neg hS,
        if_neg (fun hq => ((seedOrChord_def x0 y0 r cc rr).mp hq).elim hS hE)]

/-- Pixel characterisation at an offset `(dx, dy)` from the center,
through the magnitude-level membership predicate. -/
theorem FillCircle_CM (W H x0 y0 r color : Nat)
    (hW : W ≤ 256) (hH : H ≤ 256) (hx1 : r ≤ x0) (hx2 : x0 + r < W)
    (hy1 : r ≤ y0) (hy2 : y0 + r < H) (dx dy : Nat)
    (hdx : dx ≤ r) (hdy : dy ≤ r) (cc rr : Nat)
    (hcc : cc = x0 + dx ∨ cc = x0 - dx) (hrr : rr = y0 + dy ∨ rr = y0 - dy)
    (mem : Mem) :
    getDot (FillCircle W H mem x0 y0 r color) cc rr
      = if circleMember r dx dy then decide (color = BLACK)
        else getDot mem cc rr := by
  rw [FillCircle_getDot W H x0 y0 r color hW hH hx1 hx2 hy1 hy2 mem cc rr]
  have hiff : seedOrChord x0 y0 r cc rr ↔ circleMember r dx dy := by
    rw [seedOrChord_def, circleMember_def]
    constructor
    · rintro (⟨h1, h2, h3⟩ | ⟨p, hpmem, hpc⟩)
      · refine Or.inl ⟨?_, hdy⟩
        omega
      · have hbp := circleChords_bounds _ _ _ _ _ p hpmem
        have hpc2 : ((cc = x0 + p.1 ∨ cc = x0 - p.1)
            ∧ y0 - p.2 ≤ rr ∧ rr ≤ y0 + p.2)
            ∨ ((cc = x0 + p.2 ∨ cc = x0 - p.2)
            ∧ y0 - p.1 ≤ rr ∧ rr ≤ y0 + p.1) := hpc
        refine Or.inr ⟨p, hpmem, ?_⟩
        omega
    · rintro (⟨h1, h2⟩ | ⟨p, hpmem, hpc⟩)
      · exact Or.inl (by omega)
      · have hbp := circleChords_bounds _ _ _ _ _ p hpmem
        refine Or.inr ⟨p, hpmem, ?_⟩
        show ((cc = x0 + p.1 ∨ cc = x0 - p.1)
            ∧ y0 - p.2 ≤ rr ∧ rr ≤ y0 + p.2)
            ∨ ((cc = x0 + p.2 ∨ cc = x0 - p.2)
            ∧ y0 - p.1 ≤ rr ∧ rr ≤ y0 + p.1)
        omega
  by_cases hcm : circleMember r dx dy
  · rw [if_pos (hiff.mpr hcm), if_pos hcm]
  · rw [if_neg (fun hq => hcm (hiff.mp hq)), if_neg hcm]

/-- The uniform background canvas: every byte clear when painting
foreground, every byte set when painting background, so that a pixel
differs from the background exactly when `FillCircle` painted it. -/
def baseCanvas (color : Nat) : Mem :=
  fun _ _ => if color = BLACK then 0 else 255

theorem baseCanvas_getDot (color cc rr : Nat) :
    getDot (baseCanvas color) cc rr = !(decide (color = BLACK)) := by
  unfold getDot baseCanvas
  by_cases hcol : color = BLACK
  · simp [hcol]
  · simp [hcol, testBit_255, Nat.mod_lt]

/-- C9: for every in-range center, radius, and color (the disc within
canvas bounds), the set of pixels painted by `FillCircle` — observed on
the uniform background canvas — contains the seed vertical diameter
column from `(x0, y0-r)` to `(x0, y0+r)`; every pixel `(x0+dx, y0+dy)`
of the bounding box has the same value as all seven of its reflections
`(x0-dx, y0+dy)`, `(x0+dx, y0-dy)`, `(x0-dx, y0-dy)`, `(x0+dy, y0+dx)`,
`(x0-dy, y0+dx)`, `(x0+dy, y0-dx)`, `(x0-dy, y0-dx)` about the
horizontal, vertical and two diagonal axes through the center; and
every painted pixel lies within the bounding box, so the full painted
set is symmetric under all 8 reflections. -/
theorem c9_fillCircle_symmetric (W H x0 y0 r color : Nat)
    (hW : W ≤ 256) (hH : H ≤ 256)
    (hx1 : r ≤ x0) (hx2 : x0 + r < W) (hy1 : r ≤ y0) (hy2 : y0 + r < H) :
    (∀ dy, dy ≤ r →
        getDot (FillCircle W H (baseCanvas color) x0 y0 r color) x0 (y0 + dy)
            = decide (color = BLACK)
      ∧ getDot (FillCircle W H (baseCanvas color) x0 y0 r color) x0 (y0 - dy)
            = decide (color = BLACK))
    ∧ (∀ dx dy, dx ≤ r → dy ≤ r →
        getDot (FillCircle W H (baseCanvas color) x0 y0 r color)
            (x0 + dx) (y0 + dy)
          = getDot (FillCircle W H (baseCanvas color) x0 y0 r color)
            (x0 - dx) (y0 + dy)
      ∧ getDot (FillCircle W H (baseCanvas color) x0 y0 r color)
            (x0 + dx) (y0 + dy)
          = getDot (FillCircle W H (baseCanvas color) x0 y0 r color)
            (x0 + dx) (y0 - dy)
      ∧ getDot (FillCircle W H (baseCanvas color) x0 y0 r color)
            (x0 + dx) (y0 + dy)
          = getDot (FillCircle W H (baseCanvas color) x0 y0 r color)
            (x0 - dx) (y0 - dy)
      ∧ getDot (FillCircle W H (baseCanvas color) x0 y0 r color)
            (x0 + dx) (y0 + dy)
          = getDot (FillCircle W H (baseCanvas color) x0 y0 r color)
            (x0 + dy) (y0 + dx)
      ∧ getDot (FillCircle W H (baseCanvas color) x0 y0 r color)
            (x0 + dx) (y0 + dy)
          = getDot (FillCircle W H (baseCanvas color) x0 y0 r color)
            (x0 - dy) (y0 + dx)
      ∧ getDot (FillCircle W H (baseCanvas color) x0 y0 r color)
            (x0 + dx) (y0 + dy)
          = getDot (FillCircle W H (baseCanvas color) x0 y0 r color)
            (x0 + dy) (y0 - dx)
      ∧ getDot (FillCircle W H (baseCanvas color) x0 y0 r color)
            (x0 + dx) (y0 + dy)
          = getDot (FillCircle W H (baseCanvas color) x0 y0 r color)
            (x0 - dy) (y0 - dx))
    ∧ (∀ cc rr,
        getDot (FillCircle W H (baseCanvas color) x0 y0 r color) cc rr
            ≠ getDot (baseCanvas color) cc rr →
        x0 - r ≤ cc ∧ cc ≤ x0 + r ∧ y0 - r ≤ rr ∧ rr ≤ y0 + r) := by
  refine ⟨?_, ?_, ?_⟩
  · intro dy hdy
    constructor
    · rw [FillCircle_CM W H x0 y0 r color hW hH hx1 hx2 hy1 hy2 0 dy
        (by omega) hdy x0 (y0 + dy) (Or.inl (by omega)) (Or.inl rfl)
        (baseCanvas color)]
      rw [if_pos ((circleMember_def r 0 dy).mpr (Or.inl ⟨rfl, hdy⟩))]
    · rw [FillCircle_CM W H x0 y0 r color hW hH hx1 hx2 hy1 hy2 0 dy
        (by omega) hdy x0 (y0 - dy) (Or.inl (by omega)) (Or.inr rfl)
        (baseCanvas color)]
      rw [if_pos ((circleMember_def r 0 dy).mpr (Or.inl ⟨rfl, hdy⟩))]
  · intro dx dy hdx hdy
    refine ⟨?_, ?_, ?_, ?_, ?_, ?_, ?_⟩
    · rw [FillCircle_CM W H x0 y0 r color hW hH hx1 hx2 hy1 hy2 dx dy
        hdx hdy (x0 + dx) (y0 + dy) (Or.inl rfl) (Or.inl rfl)
        (baseCanvas color),
        FillCircle_CM W H x0 y0 r color hW hH hx1 hx2 hy1 hy2 dx dy
        hdx hdy (x0 - dx) (y0 + dy) (Or.inr rfl) (Or.inl rfl)
        (baseCanvas color)]
      simp only [baseCanvas_getDot]
    · rw [FillCircle_CM W H x0 y0 r color hW hH hx1 hx2 hy1 hy2 dx dy
        hdx hdy (x0 + dx) (y0 + dy) (Or.inl rfl) (Or.inl rfl)
        (baseCanvas color),
        FillCircle_CM W H x0 y0 r color hW hH hx1 hx2 hy1 hy2 dx dy
        hdx hdy (x0 + dx) (y0 - dy) (Or.inl rfl) (Or.inr rfl)
        (baseCanvas color)]
      simp only [baseCanvas_getDot]
    · rw [FillCircle_CM W H x0 y0 r color hW hH hx1 hx2 hy1 hy2 dx dy
        hdx hdy (x0 + dx) (y0 + dy) (Or.inl rfl) (Or.inl rfl)
        (baseCanvas color),
        FillCircle_CM W H x0 y0 r color hW hH hx1 hx2 hy1 hy2 dx dy
        hdx hdy (x0 - dx) (y0 - dy) (Or.inr rfl) (Or.inr rfl)
        (baseCanvas color)]
      simp only [baseCanvas_getDot]
    · rw [FillCircle_CM W H x0 y0 r color hW hH hx1 hx2 hy1 hy2 dx dy
        hdx hdy (x0 + dx) (y0 + dy) (Or.inl rfl) (Or.inl rfl)
        (baseCanvas color),
        FillCircle_CM W H x0 y0 r color hW hH hx1 hx2 hy1 hy2 dy dx
        hdy hdx (x0 + dy) (y0 + dx) (Or.inl rfl) (Or.inl rfl)
        (baseCanvas color)]
      simp only [baseCanvas_getDot]
      by_cases hcm : circleMember r dx dy
      · rw [if_pos hcm,
          if_pos (circleMember_mirror_all r dx dy hdx hdy hcm)]
      · rw [if_neg hcm,
          if_neg (fun hq => hcm (circleMember_mirror_all r dy dx hdy hdx hq))]
    · rw [FillCircle_CM W H x0 y0 r color hW hH hx1 hx2 hy1 hy2 dx dy
        hdx hdy (x0 + dx) (y0 + dy) (Or.inl rfl) (Or.inl rfl)
        (baseCanvas color),
        FillCircle_CM W H x0 y0 r color hW hH hx1 hx2 hy1 hy2 dy dx
        hdy hdx (x0 - dy) (y0 + dx) (Or.inr rfl) (Or.inl rfl)
        (baseCanvas color)]
      simp only [baseCanvas_getDot]
      by_cases hcm : circleMember r dx dy
      · rw [if_pos hcm,
          if_pos (circleMember_mirror_all r dx dy hdx hdy hcm)]
      · rw [if_neg hcm,
          if_neg (fun hq => hcm (circleMember_mirror_all r dy dx hdy hdx hq))]
    · rw [FillCircle_CM W H x0 y0 r color hW hH hx1 hx2 hy1 hy2 dx dy
        hdx hdy (x0 + dx) (y0 + dy) (Or.inl rfl) (Or.inl rfl)
        (baseCanvas color),
        FillCircle_CM W H x0 y0 r color hW hH hx1 hx2 hy1 hy2 dy dx
        hdy hdx (x0 + dy) (y0 - dx) (Or.inl rfl) (Or.inr rfl)
        (baseCanvas color)]
      simp only [baseCanvas_getDot]
      by_cases hcm : circleMember r dx dy
      · rw [if_pos hcm,
          if_pos (circleMember_mirror_all r dx dy hdx hdy hcm)]
      · rw [if_neg hcm,
          if_neg (fun hq => hcm (circleMember_mirror_all r dy dx hdy hdx hq))]
    · rw [FillCircle_CM W H x0 y0 r color hW hH hx1 hx2 hy1 hy2 dx dy
        hdx hdy (x0 + dx) (y0 + dy) (Or.inl rfl) (Or.inl rfl)
        (baseCanvas color),
        FillCircle_CM W H x0 y0 r color hW hH hx1 hx2 hy1 hy2 dy dx
        hdy hdx (x0 - dy) (y0 - dx) (Or.inr rfl) (Or.inr rfl)
        (baseCanvas color)]
      simp only [baseCanvas_getDot]
      by_cases hcm : circleMember r dx dy
      · rw [if_pos hcm,
          if_pos (circleMember_mirror_all r dx dy hdx hdy hcm)]
      · rw [if_neg hcm,
          if_neg (fun hq => hcm (circleMember_mirror_all r dy dx hdy hdx hq))]
  · intro cc rr hne
    by_contra hout
    apply hne
    rw [FillCircle_getDot W H x0 y0 r color hW hH hx1 hx2 hy1 hy2
      (baseCanvas color) cc rr]
    rw [if_neg (fun hq => ?_)]
    rcases (seedOrChord_def x0 y0 r cc rr).mp hq with ⟨h1, h2, h3⟩ | ⟨p, hpmem, hpc⟩
    · exact hout (by omega)
    · have hbp := circleChords_bounds _ _ _ _ _ p hpmem
      have hpc2 : ((cc = x0 + p.1 ∨ cc = x0 - p.1)
          ∧ y0 - p.2 ≤ rr ∧ rr ≤ y0 + p.2)
          ∨ ((cc = x0 + p.2 ∨ cc = x0 - p.2)
          ∧ y0 - p.1 ≤ rr ∧ rr ≤ y0 + p.1) := hpc
      exact hout (by omega)

theorem c9_fillCircle_symmetric_witness :
    (5 : Nat) ≤ 6 ∧ 6 + 5 < 128 ∧ 6 + 5 < 64
    ∧ getDot (FillCircle 128 64 (baseCanvas 255) 6 6 5 255) 6 (6 + 5)
        = decide ((255 : Nat) = BLACK)
    ∧ getDot (FillCircle 128 64 (baseCanvas 255) 6 6 5 255) (6 + 3) (6 + 2)
        = getDot (FillCircle 128 64 (baseCanvas 255) 6 6 5 255) (6 + 2) (6 + 3)
    ∧ getDot (FillCircle 128 64 (baseCanvas 255) 6 6 5 255) (6 + 3) (6 + 2)
        = getDot (FillCircle 128 64 (baseCanvas 255) 6 6 5 255) (6 - 2) (6 - 3) :=
  ⟨by decide, by decide, by decide,
    ((c9_fillCircle_symmetric 128 64 6 6 5 255 (by decide) (by decide)
        (by decide) (by decide) (by decide) (by decide)).1 5 (by decide)).1,
    ((c9_fillCircle_symmetric 128 64 6 6 5 255 (by decide) (by decide)
        (by decide) (by decide) (by decide) (by decide)).2.1 3 2 (by decide)
        (by decide)).2.2.2.1,
    ((c9_fillCircle_symmetric 128 64 6 6 5 255 (by decide) (by decide)
        (by decide) (by decide) (by decide) (by decide)).2.1 3 2 (by decide)
        (by decide)).2.2.2.2.2.2⟩

end Glcd
